import Mathlib

/-!
Verification development for the incant function-composition engine
(src/incant/__init__.py, src/incant/_codegen.py).

The Python source is shallowly embedded: callables become `Fn` values
carrying an identity, a signature and a coroutine flag; hooks are
predicate/resolver pairs over parameters; the graph builder
`_gen_dep_tree`, the plan builder `_gen_call`, the code generator
`compile_invoke` and the direct-call planner `_gen_incant_plan` are
translated into executable Lean functions.  Generated Python source text
is modelled as a small statement/expression AST together with an
interpreter that records the order of factory invocations, so that the
observable behaviour of a compiled plan can be evaluated on concrete
inputs.

Notes on the embedding.  `__init__.py` imports the plan compiler as
`compile_compose`; the function `_codegen.py` defines is
`compile_invoke`, with exactly the parameter list of the call site, so
the two names denote the same function here.  Cosmetic aspects of code
generation (global-name collision avoidance, annotation rendering, the
linecache filename) are not modelled; local-variable numbering, which
is semantic, is.  A `with` block lexically encloses everything that
follows it in the generated function; the statement list is kept flat,
which preserves the order of factory invocations because resource exits
invoke no factory.  The builder's `while` loop can diverge on cyclic
hook graphs, so it takes fuel; every concrete scenario uses enough.
-/

namespace Incant

/-- A small universe of Python types, enough to model annotations.
`dog` is a strict subclass of `animal`; every type is a (non-strict)
subclass of itself, mirroring Python's `issubclass`. -/
inductive Ty
  | int
  | str
  | float
  | animal
  | dog
  deriving DecidableEq

/-- Python `issubclass` restricted to the universe above: reflexive, and
`dog` is a subclass of `animal`. -/
def pySubclassOf : Ty → Ty → Bool
  | Ty.dog, Ty.animal => true
  | a, b => a == b

/-- Runtime values are opaque tokens; behaviours only matter through the
invocation trace and raise/return outcomes. -/
abbrev Val := Nat

/-- Parameter kinds relevant to the engine: the builder skips optional
keyword-only parameters of dependencies. -/
inductive PKind
  | posOrKw
  | kwOnly
  deriving DecidableEq

/-- One formal parameter of a callable: name, optional annotation
(`none` models `Signature.empty`), optional default, and kind. -/
structure Param where
  name : String
  annotation : Option Ty
  default : Option Val
  kind : PKind
  deriving DecidableEq

/-- A Python callable: an identity (object identity), a signature and a
coroutine flag (`inspect.iscoroutinefunction`). -/
structure Fn where
  id : Nat
  params : List Param
  isCoroutine : Bool
  deriving DecidableEq

/-- Context-manager kinds, as in `_codegen.CtxManagerKind`. -/
inductive CtxKind
  | sync
  | async
  deriving DecidableEq

/-- `_codegen.ParameterDep`: an outer (caller-supplied) argument with its
declared type and default; `none` models `Signature.empty`. -/
structure ParameterDep where
  arg_name : String
  type : Option Ty
  default : Option Val
  deriving DecidableEq

/-- A dependency of a node: either an outer parameter or a factory
reference (`FactoryDep(factory, arg_name, is_ctx_manager)`). -/
inductive Dep
  | paramDep (p : ParameterDep)
  | factoryDep (factory : Fn) (argName : String) (ctx : Option CtxKind)
  deriving DecidableEq

/-- One node of the dependency tree produced by `_gen_dep_tree`:
`(factory, ctx_mgr_kind, dependents)`. -/
structure DepNode where
  factory : Fn
  ctxKind : Option CtxKind
  deps : List Dep
  deriving DecidableEq

/-- A hook: a predicate over parameters, and optionally a resolver
(a factory provider together with a context-manager marker). -/
structure Hook where
  predicate : Param → Bool
  factory : Option ((Param → Fn) × Option CtxKind)

/-- `Hook.for_type`: predicate is exact equality of the annotation with
the given type (subclasses do not match); the optional callable is
wrapped into a constant provider with no ctx-manager marker. -/
def Hook.for_type (type : Ty) (hook : Option Fn) : Hook :=
  ⟨fun p => p.annotation == some type,
   hook.map (fun f => (fun _ => f, none))⟩

/-- The predicate installed by `Incanter.register_by_type`: the
annotation equals the registered type, or is a subclass of it
(`is_subclass` returns `False` for a missing annotation, since
`issubclass` raises there). -/
def register_by_type_predicate (type : Ty) (p : Param) : Bool :=
  p.annotation == some type ||
    (match p.annotation with
     | some s => pySubclassOf s type
     | none => false)

/-- The hook installed by `register_by_type` with an explicit type. -/
def register_by_type_hook (f : Fn) (type : Ty) (ctx : Option CtxKind) : Hook :=
  ⟨register_by_type_predicate type, some (fun _ => f, ctx)⟩

/-- `register_hook_factory` inserts the new hook at the front of the
registry (most recently registered first). -/
def register_hook_list (h : Hook) (registry : List Hook) : List Hook :=
  h :: registry

/-- Outcome of matching one parameter against the hook list. -/
inductive HookApp
  | toParam
  | toFactory (f : Fn) (ctx : Option CtxKind)

/-- The inner hook loop of `_gen_dep_tree`, with the applied hook's
index: first hook whose predicate matches is taken, except that a hook
resolving to the node currently being processed is skipped
(`if factory == node: continue`) and scanning goes on with later hooks.
`none` means the loop fell through (the `for ... else` branch). -/
def applyHooksGo (node : Fn) (p : Param) : List Hook → Nat → Option (Nat × HookApp)
  | [], _ => none
  | h :: rest, i =>
    if h.predicate p then
      match h.factory with
      | none => some (i, HookApp.toParam)
      | some (hf, ctx) =>
        if hf p = node then applyHooksGo node p rest (i + 1)
        else some (i, HookApp.toFactory (hf p) ctx)
    else applyHooksGo node p rest (i + 1)

/-- The hook loop, entered with index 0. -/
def applyHooksIdx (hooks : List Hook) (node : Fn) (p : Param) : Option (Nat × HookApp) :=
  applyHooksGo node p hooks 0

/-- Whether a hook is applicable to a parameter when processing `node`:
its predicate matches, and it does not resolve to `node` itself. -/
def hookApplicable (node : Fn) (p : Param) (h : Hook) : Bool :=
  h.predicate p &&
    (match h.factory with
     | none => true
     | some (hf, _) => !(hf p == node))

/-- State threaded through processing the parameters of one node:
dependents collected so far, factories newly queued this round, and the
set (`already_processed_hooks`) of factories ever queued. -/
structure NodeAcc where
  deps : List Dep
  queued : List (Fn × Option CtxKind)
  seen : List Fn

/-- Processing a single parameter of `node` inside `_gen_dep_tree`:
skip optional keyword-only parameters of dependencies, otherwise match
against the hooks and record either a `ParameterDep` or a `FactoryDep`
(queueing a factory the first time it is encountered). -/
def processParam (fn node : Fn) (hooks : List Hook) (acc : NodeAcc) (p : Param) : NodeAcc :=
  if node ≠ fn ∧ p.default ≠ none ∧ p.kind = PKind.kwOnly then acc
  else
    match applyHooksIdx hooks node p with
    | some (_, HookApp.toParam) =>
      { acc with deps := acc.deps ++ [Dep.paramDep ⟨p.name, p.annotation, p.default⟩] }
    | some (_, HookApp.toFactory f ctx) =>
      let acc :=
        if f ∈ acc.seen then acc
        else { acc with queued := acc.queued ++ [(f, ctx)], seen := acc.seen ++ [f] }
      { acc with deps := acc.deps ++ [Dep.factoryDep f p.name ctx] }
    | none =>
      { acc with deps := acc.deps ++ [Dep.paramDep ⟨p.name, p.annotation, p.default⟩] }

/-- State of the breadth-first expansion: the work queue, the seen set,
and the result list built by front insertion. -/
structure BuildAcc where
  queued : List (Fn × Option CtxKind)
  seen : List Fn
  finalNodes : List DepNode

/-- Process one queued node: collect its dependents and insert the node
at the front of the result list. -/
def processNode (fn : Fn) (hooks : List Hook) (acc : BuildAcc)
    (nk : Fn × Option CtxKind) : BuildAcc :=
  let r := nk.1.params.foldl (processParam fn nk.1 hooks) ⟨[], [], acc.seen⟩
  { queued := acc.queued ++ r.queued
    seen := r.seen
    finalNodes := ⟨nk.1, nk.2, r.deps⟩ :: acc.finalNodes }

/-- The outer `while to_process` loop of `_gen_dep_tree`, with fuel
bounding the number of rounds (the Python loop can diverge on cyclic
hook graphs). -/
def buildRounds (fn : Fn) (hooks : List Hook) :
    Nat → List (Fn × Option CtxKind) → List Fn → List DepNode → Option (List DepNode)
  | 0, queue, _, acc => if queue.isEmpty then some acc else none
  | _ + 1, [], _, acc => some acc
  | fuel + 1, queue, seen, acc =>
    let r := queue.foldl (processNode fn hooks) ⟨[], seen, acc⟩
    buildRounds fn hooks fuel r.queued r.seen r.finalNodes

/-- Stable insertion by number of dependents (ascending): an element is
placed after all elements whose dependent count does not exceed its
own, which is exactly Python's stable `list.sort`. -/
def insertByLen (a : DepNode) : List DepNode → List DepNode
  | [] => [a]
  | b :: bs =>
    if b.deps.length ≤ a.deps.length then b :: insertByLen a bs
    else a :: b :: bs

/-- Stable sort of the dependency nodes by number of dependents. -/
def sortNodesByLen (l : List DepNode) : List DepNode :=
  l.foldl (fun acc a => insertByLen a acc) []

/-- `Incanter._gen_dep_tree`: breadth-first expansion from the target
and the forced dependencies, followed by the stable sort of all nodes
but the last (the target) by number of dependents. -/
def gen_dep_tree (fuel : Nat) (registry : List Hook) (fn : Fn)
    (additionalHooks : List Hook)
    (forcedDeps : List (Fn × Option CtxKind)) : Option (List DepNode) :=
  let hooks := additionalHooks ++ registry
  match buildRounds fn hooks fuel ((fn, none) :: forcedDeps) [] [] with
  | none => none
  | some finalNodes =>
    match finalNodes.getLast? with
    | none => some []
    | some last => some (sortNodesByLen finalNodes.dropLast ++ [last])

/-- `_reconcile_types`: an absent type yields to the other side, equal
types agree, distinct present types are an error carrying both. -/
def reconcile_types : Option Ty → Option Ty → Except (Ty × Ty) (Option Ty)
  | none, b => Except.ok b
  | a, none => Except.ok a
  | some a, some b => if a = b then Except.ok (some a) else Except.error (a, b)

/-- Errors raised during plan construction (composition time):
the `TypeError` for a coroutine dependency under a synchronous
composition (naming the offending factory and pointing at the async
entry point), the `IncantError` wrapping a type-reconciliation failure
(naming the argument and both types), and the `SyntaxError` Python's
`compile` raises when generated sync code contains `await`. -/
inductive CompErr
  | asyncMismatch (factory : Fn)
  | reconcileError (argName : String) (t1 t2 : Ty)
  | syntaxError
  deriving DecidableEq

/-- One step of collecting the keys of the grouping dict: a new name is
appended, a known one is skipped. -/
def keyStep (acc : List String) (a : ParameterDep) : List String :=
  if a.arg_name ∈ acc then acc else acc ++ [a.arg_name]

/-- Key list of the `per_outer_arg` grouping dict: argument names in
order of first occurrence, without duplicates. -/
def keyList (l : List ParameterDep) : List String :=
  l.foldl keyStep []

/-- The `per_outer_arg` grouping: for each name (in first-occurrence
order) the list of all its occurrences in order, as Python's
`dict.setdefault(...).append(...)` builds it. -/
def per_outer_arg (l : List ParameterDep) : List (String × List ParameterDep) :=
  (keyList l).map (fun n => (n, l.filter (fun a => a.arg_name = n)))

/-- The reconciliation fold over one name group: thread the winning
type through `reconcile_types`, and let every declared default
overwrite the current one (last one wins). -/
def foldGroup : Option Ty → Option Val → List ParameterDep →
    Except (Ty × Ty) (Option Ty × Option Val)
  | t, d, [] => Except.ok (t, d)
  | t, d, a :: rest =>
    match reconcile_types t a.type with
    | Except.error e => Except.error e
    | Except.ok t2 =>
      foldGroup t2 (if a.default ≠ none then a.default else d) rest

/-- Consolidate one name group into a single outer parameter: a
singleton keeps its type and default, a larger group runs the
reconciliation fold; a clash becomes an `IncantError` naming the
argument and both types. -/
def consolidateGroup (name : String) (args : List ParameterDep) :
    Except CompErr ParameterDep :=
  match args with
  | [a] => Except.ok ⟨name, a.type, a.default⟩
  | _ =>
    match foldGroup none none args with
    | Except.error (t1, t2) => Except.error (CompErr.reconcileError name t1 t2)
    | Except.ok (t, d) => Except.ok ⟨name, t, d⟩

/-- Consolidate all name groups in order. -/
def consolidateOuter : List (String × List ParameterDep) → Except CompErr (List ParameterDep)
  | [] => Except.ok []
  | (nm, g) :: rest =>
    match consolidateGroup nm g with
    | Except.error e => Except.error e
    | Except.ok p =>
      match consolidateOuter rest with
      | Except.error e => Except.error e
      | Except.ok ps => Except.ok (p :: ps)

/-- The stable sort of the outer arguments by presence of a default
(parameters without a default first); on a Boolean key Python's stable
sort is exactly this partition. -/
def sortOuter (l : List ParameterDep) : List ParameterDep :=
  l.filter (fun a => a.default.isNone) ++ l.filter (fun a => !a.default.isNone)

/-- All outer (caller-supplied) dependencies across the whole tree, in
node order. -/
def outerDeps (tree : List DepNode) : List ParameterDep :=
  (tree.map (fun n => n.deps.filterMap (fun d =>
    match d with
    | Dep.paramDep p => some p
    | Dep.factoryDep _ _ _ => none))).flatten

/-- An argument of an invocation: either a factory reference or an
outer parameter (as in `_codegen.Invocation.args`). -/
inductive InvArg
  | factoryArg (f : Fn)
  | paramArg (p : ParameterDep)
  deriving DecidableEq

/-- `_codegen.Invocation`: a step of the generated function. -/
structure Invocation where
  factory : Fn
  args : List InvArg
  is_forced : Bool
  is_ctx_manager : Option CtxKind
  deriving DecidableEq

/-- Whether a node requires asynchronous execution: its factory is a
coroutine function or it is marked as an asynchronous ctx manager. -/
def nodeAsync (n : DepNode) : Bool :=
  n.factory.isCoroutine || n.ctxKind == some CtxKind.async

/-- Translate a dependency into an invocation argument
(`dep.factory if isinstance(dep, FactoryDep) else dep`). -/
def toInvArg : Dep → InvArg
  | Dep.paramDep p => InvArg.paramArg p
  | Dep.factoryDep f _ _ => InvArg.factoryArg f

/-- The invocation-building loop of `_gen_call` over all nodes but the
last: under a synchronous composition an asynchronous node raises the
`TypeError` naming it; otherwise the node becomes an `Invocation`,
marked forced when no downstream node references its factory. -/
def buildInvocations (isAsync : Bool) : List DepNode → Except CompErr (List Invocation)
  | [] => Except.ok []
  | [_] => Except.ok []
  | n :: rest =>
    if !isAsync && nodeAsync n then Except.error (CompErr.asyncMismatch n.factory)
    else
      let needed := rest.any (fun m => m.deps.any (fun d =>
        match d with
        | Dep.factoryDep f _ _ => f == n.factory
        | Dep.paramDep _ => false))
      match buildInvocations isAsync rest with
      | Except.error e => Except.error e
      | Except.ok tl =>
        Except.ok (⟨n.factory, n.deps.map toInvArg, !needed, n.ctxKind⟩ :: tl)

/-- Expressions of the generated function body.  `localVar ix` is the
variable `_incant_local_ix`; `outerRef` reads an outer parameter;
`call` records whether the call is awaited (only relevant to the
syntax check); `badRef` models a lookup failure while generating the
reference (a `KeyError`/`IndexError` in the generator). -/
inductive Expr
  | localVar (ix : Nat)
  | outerRef (name : String)
  | call (f : Fn) (awaited : Bool) (args : List Expr)
  | badRef

/-- Statements of the generated function body.  `withEnter` models a
`with`/`async with` statement; its block extends to the end of the
function, so the statement list is kept flat: the resource's exit
actions invoke no factory and are not observed by the trace. -/
inductive Stmt
  | assign (ix : Nat) (e : Expr)
  | exprStmt (e : Expr)
  | withEnter (bind : Option Nat) (e : Expr) (isAsyncWith : Bool)

/-- The compiled routine: its outer-parameter signature, body, final
call expression and async flag. -/
structure CompiledFn where
  params : List ParameterDep
  body : List Stmt
  ret : Expr
  isAsync : Bool

/-- Result of composition: either the target callable itself
(the passthrough shortcut) or a freshly generated routine (never equal
to the target). -/
inductive Plan
  | passthrough
  | compiled (c : CompiledFn)

/-- Index of a factory's invocation, as the dict comprehension
`{inv.factory: ix for ix, inv in enumerate(invocations)}` computes it
(last occurrence wins). -/
def ixOfFactory (invocs : List Invocation) (f : Fn) : Option Nat :=
  (invocs.enum.foldl (fun acc iv => if iv.2.factory = f then some iv.1 else acc) none)

/-- The inlineability count: occurrences in the target's factory
arguments plus occurrences in the arguments of every invocation that is
not a context manager (the `continue` in the source skips counting the
arguments of ctx-manager invocations). -/
def usesCount (fnArgs : List Fn) (invocs : List Invocation) (f : Fn) : Nat :=
  fnArgs.count f +
    invocs.foldl (fun acc i =>
      if i.is_ctx_manager = none then
        acc + i.args.countP (fun a => a == InvArg.factoryArg f)
      else acc) 0

/-- Lookup in the `inline_exprs_by_factory` dict (newest entry first,
modelling overwriting assignment). -/
def lookupInline : List (Fn × Expr) → Fn → Option Expr
  | [], _ => none
  | (g, e) :: rest, f => if g = f then some e else lookupInline rest f

/-- Render one invocation argument: an outer parameter by name, a
factory through its inline expression when one exists, else through the
local variable numbered by its invocation index. -/
def invArgExpr (inl : List (Fn × Expr)) (ixOf : Fn → Option Nat) : InvArg → Expr
  | InvArg.paramArg p => Expr.outerRef p.arg_name
  | InvArg.factoryArg f =>
    match lookupInline inl f with
    | some e => e
    | none =>
      match ixOf f with
      | some ix => Expr.localVar ix
      | none => Expr.badRef

/-- State of the code-generation loop: the inline-expression dict, the
`local_counter` used to *name* fresh locals, and the statements so far. -/
structure CGState where
  inl : List (Fn × Expr)
  counter : Nat
  stmts : List Stmt

/-- One iteration of the invocation loop of `compile_invoke`: an
inlineable non-ctx-manager invocation becomes a pending inline
expression; a ctx manager becomes a `with` statement (binding
`_incant_local_{local_counter}` unless forced); any other invocation
becomes an assignment to `_incant_local_{local_counter}`, or a bare
call when forced.  Note that references to a local use the invocation
*index*, while its name uses the *counter*. -/
def cgStep (inlineable : Fn → Bool) (ixOf : Fn → Option Nat)
    (st : CGState) (invoc : Invocation) : CGState :=
  let args := invoc.args.map (invArgExpr st.inl ixOf)
  if inlineable invoc.factory ∧ invoc.is_ctx_manager = none then
    { st with inl := (invoc.factory,
        Expr.call invoc.factory invoc.factory.isCoroutine args) :: st.inl }
  else
    match invoc.is_ctx_manager with
    | some k =>
      if invoc.is_forced then
        { st with stmts := st.stmts ++
            [Stmt.withEnter none (Expr.call invoc.factory false args) (k = CtxKind.async)] }
      else
        { st with
            stmts := st.stmts ++ [Stmt.withEnter (some st.counter)
              (Expr.call invoc.factory false args) (k = CtxKind.async)]
            counter := st.counter + 1 }
    | none =>
      if invoc.is_forced then
        { st with stmts := st.stmts ++
            [Stmt.exprStmt (Expr.call invoc.factory invoc.factory.isCoroutine args)] }
      else
        { st with
            stmts := st.stmts ++ [Stmt.assign st.counter
              (Expr.call invoc.factory invoc.factory.isCoroutine args)]
            counter := st.counter + 1 }

/-- Arguments of the final call to the target, walked over the target's
own parameters with the running counter `cnt` into the factory list. -/
def buildFinalArgs (inl : List (Fn × Expr)) (ixOf : Fn → Option Nat)
    (fnFactoryArgs : List String) (outerNames : List String) (fnArgs : List Fn) :
    List Param → Nat → List Expr
  | [], _ => []
  | p :: rest, cnt =>
    if p.name ∉ fnFactoryArgs ∧ p.name ∈ outerNames then
      Expr.outerRef p.name :: buildFinalArgs inl ixOf fnFactoryArgs outerNames fnArgs rest cnt
    else
      (match fnArgs[cnt]? with
       | some f => invArgExpr inl ixOf (InvArg.factoryArg f)
       | none => Expr.badRef) ::
        buildFinalArgs inl ixOf fnFactoryArgs outerNames fnArgs rest (cnt + 1)

mutual
/-- Whether an expression contains an awaited call. -/
def exprHasAwait : Expr → Bool
  | Expr.call _ aw args => aw || argsHaveAwait args
  | _ => false

/-- Whether any expression of a list contains an awaited call. -/
def argsHaveAwait : List Expr → Bool
  | [] => false
  | e :: rest => exprHasAwait e || argsHaveAwait rest
end

/-- Whether a statement contains an awaited call or an `async with`. -/
def stmtHasAwait : Stmt → Bool
  | Stmt.assign _ e => exprHasAwait e
  | Stmt.exprStmt e => exprHasAwait e
  | Stmt.withEnter _ e aw => aw || exprHasAwait e

/-- `_codegen.compile_invoke`: generate the composed routine from the
target, its factory-supplied arguments, the consolidated outer
arguments and the invocation list.  Compiling the generated source
raises a `SyntaxError` when a synchronous `def` would contain `await`
or `async with`. -/
def compile_invoke (fn : Fn) (fnArgs : List Fn) (fnFactoryArgs : List String)
    (outerArgs : List ParameterDep) (invocations : List Invocation)
    (is_async : Bool) : Except CompErr Plan :=
  let ixOf := ixOfFactory invocations
  let inlineable := fun f => usesCount fnArgs invocations f == 1
  let final := invocations.foldl (cgStep inlineable ixOf) ⟨[], 0, []⟩
  let outerNames := outerArgs.map (fun a => a.arg_name)
  let retArgs := buildFinalArgs final.inl ixOf fnFactoryArgs outerNames fnArgs fn.params 0
  let ret := Expr.call fn fn.isCoroutine retArgs
  if is_async = false ∧ (final.stmts.any stmtHasAwait || exprHasAwait ret) then
    Except.error CompErr.syntaxError
  else
    Except.ok (Plan.compiled ⟨outerArgs, final.stmts, ret, is_async⟩)

/-- The factory-supplied argument names of the target (in order). -/
def lastFactoryArgNames (deps : List Dep) : List String :=
  deps.filterMap (fun d =>
    match d with
    | Dep.factoryDep _ n _ => some n
    | Dep.paramDep _ => none)

/-- The factories supplying the target's arguments (in order). -/
def lastFactories (deps : List Dep) : List Fn :=
  deps.filterMap (fun d =>
    match d with
    | Dep.factoryDep f _ _ => some f
    | Dep.paramDep _ => none)

/-- Sync/async resolution: `None` means autodetect from the tree. -/
def resolveAsync (tree : List DepNode) : Option Bool → Bool
  | none => tree.any nodeAsync
  | some b => b

/-- The non-passthrough path of `Incanter._gen_call`: the invocation
loop (with its async check), the outer-parameter consolidation and
sort, and finally code generation. -/
def gen_call_main (fn : Fn) (tree : List DepNode) (isAsync : Bool) :
    Except CompErr Plan :=
  match buildInvocations isAsync tree with
  | Except.error e => Except.error e
  | Except.ok invocs =>
    match consolidateOuter (per_outer_arg (outerDeps tree)) with
    | Except.error e => Except.error e
    | Except.ok outer =>
      let lastDeps := ((tree.getLast?).map (fun n => n.deps)).getD []
      compile_invoke fn (lastFactories lastDeps) (lastFactoryArgNames lastDeps)
        (sortOuter outer) invocs isAsync

/-- `Incanter._gen_call` from an already-built dependency tree: the
passthrough shortcut, then the main path. -/
def genCallFromTree (fn : Fn) (tree : List DepNode) (is_async : Option Bool) :
    Except CompErr Plan :=
  if tree.length = 1 ∧ (is_async = none ∨ is_async = some fn.isCoroutine) then
    Except.ok Plan.passthrough
  else gen_call_main fn tree (resolveAsync tree is_async)

/-- Full composition: build the dependency tree (with fuel), then the
plan.  `none` models divergence of the Python builder. -/
def gen_call (fuel : Nat) (registry : List Hook) (fn : Fn) (is_async : Option Bool)
    (forcedDeps : List (Fn × Option CtxKind)) : Option (Except CompErr Plan) :=
  (gen_dep_tree fuel registry fn [] forcedDeps).map
    (fun tree => genCallFromTree fn tree is_async)

/-- The asynchronous nature of a composition result, seen by the
caller: the passthrough is the target itself. -/
def planIsAsync (fn : Fn) : Plan → Bool
  | Plan.passthrough => fn.isCoroutine
  | Plan.compiled c => c.isAsync

/-- Runtime behaviour of the factories: by callable identity, a result
for given argument values, or `none` for a raised exception. -/
structure Sem where
  behave : Nat → List Val → Option Val

/-- Runtime errors of a composed-routine call: an unbound local
(`NameError` on `_incant_local_ix`), a missing outer argument, an
exception raised by a factory, and a reference the generator failed to
produce. -/
inductive RunErr
  | unboundLocal (ix : Nat)
  | unboundOuter (name : String)
  | raised (fid : Nat)
  | badExpr
  deriving DecidableEq

/-- Lookup of a local variable. -/
def lookupLocal : List (Nat × Val) → Nat → Option Val
  | [], _ => none
  | (i, v) :: rest, ix => if i = ix then some v else lookupLocal rest ix

/-- Lookup of an outer argument value. -/
def lookupOuter : List (String × Val) → String → Option Val
  | [], _ => none
  | (n, v) :: rest, nm => if n = nm then some v else lookupOuter rest nm

mutual
/-- Evaluate an expression: returns the trace of factory identities
invoked (in order, arguments left to right before the call itself) and
the result or the first error. -/
def evalExpr (sem : Sem) (outer : List (String × Val)) (env : List (Nat × Val)) :
    Expr → List Nat × Except RunErr Val
  | Expr.localVar ix =>
    ([], match lookupLocal env ix with
         | some v => Except.ok v
         | none => Except.error (RunErr.unboundLocal ix))
  | Expr.outerRef nm =>
    ([], match lookupOuter outer nm with
         | some v => Except.ok v
         | none => Except.error (RunErr.unboundOuter nm))
  | Expr.badRef => ([], Except.error RunErr.badExpr)
  | Expr.call f _ args =>
    match evalArgs sem outer env args with
    | (tr, Except.error e) => (tr, Except.error e)
    | (tr, Except.ok vs) =>
      (tr ++ [f.id],
       match sem.behave f.id vs with
       | some v => Except.ok v
       | none => Except.error (RunErr.raised f.id))

/-- Evaluate a list of argument expressions left to right. -/
def evalArgs (sem : Sem) (outer : List (String × Val)) (env : List (Nat × Val)) :
    List Expr → List Nat × Except RunErr (List Val)
  | [] => ([], Except.ok [])
  | e :: rest =>
    match evalExpr sem outer env e with
    | (tr, Except.error err) => (tr, Except.error err)
    | (tr, Except.ok v) =>
      match evalArgs sem outer env rest with
      | (tr2, Except.error err) => (tr ++ tr2, Except.error err)
      | (tr2, Except.ok vs) => (tr ++ tr2, Except.ok (v :: vs))
end

/-- Execute the statements of the generated body in order, threading
the local environment and accumulating the invocation trace; the first
error aborts the remaining statements, as an exception would. -/
def execStmts (sem : Sem) (outer : List (String × Val)) :
    List Stmt → List (Nat × Val) → List Nat × Except RunErr (List (Nat × Val))
  | [], env => ([], Except.ok env)
  | s :: rest, env =>
    let step :=
      match s with
      | Stmt.assign ix e =>
        (match evalExpr sem outer env e with
         | (tr, Except.error err) => (tr, Except.error err)
         | (tr, Except.ok v) => (tr, Except.ok ((ix, v) :: env)))
      | Stmt.exprStmt e =>
        (match evalExpr sem outer env e with
         | (tr, Except.error err) => (tr, Except.error err)
         | (tr, Except.ok _) => (tr, Except.ok env))
      | Stmt.withEnter bind e _ =>
        (match evalExpr sem outer env e with
         | (tr, Except.error err) => (tr, Except.error err)
         | (tr, Except.ok v) =>
           (tr, Except.ok (match bind with
                           | some ix => (ix, v) :: env
                           | none => env)))
    match step with
    | (tr, Except.error err) => (tr, Except.error err)
    | (tr, Except.ok env2) =>
      match execStmts sem outer rest env2 with
      | (tr2, r) => (tr ++ tr2, r)

/-- Call the compiled routine with the given outer argument values:
run the body, then evaluate the final call to the target. -/
def runCompiled (sem : Sem) (outer : List (String × Val)) (c : CompiledFn) :
    List Nat × Except RunErr Val :=
  match execStmts sem outer c.body [] with
  | (tr, Except.error err) => (tr, Except.error err)
  | (tr, Except.ok env) =>
    match evalExpr sem outer env c.ret with
    | (tr2, r) => (tr ++ tr2, r)

/-- An entry of the argument-routing plan of the direct-call matcher:
route a positional argument by index or a keyword by name. -/
inductive PlanEntry
  | pos (ix : Nat)
  | kw (name : String)
  deriving DecidableEq

/-- The first inner loop of `_gen_incant_plan`: scan the keyword
predicates and report whether any matches the parameter (the keyword's
name is not consulted). -/
def kwPredLoop (p : Param) : List (String × (Param → Bool)) → Bool
  | [] => false
  | (_, pr) :: rest => if pr p then true else kwPredLoop p rest

/-- The positional loop of `_gen_incant_plan`: the index of the first
positional predicate accepting the parameter. -/
def posLoop (p : Param) (i : Nat) : List (Param → Bool) → Option Nat
  | [] => none
  | pr :: rest => if pr p then some i else posLoop p (i + 1) rest

/-- `Incanter._gen_incant_plan`: for each declared parameter, in order:
if any keyword predicate accepts it, route it as a keyword of the
parameter's own name; else, when annotated, try the positional
predicates in order; else a keyword argument of the same name; else
skip it when it has a default; else a `TypeError` naming it. -/
def gen_incant_go (posArgs : List (Param → Bool))
    (kwargs : List (String × (Param → Bool))) : List Param → Except String (List PlanEntry)
  | [] => Except.ok []
  | p :: rest =>
    let cont := fun (e : PlanEntry) =>
      match gen_incant_go posArgs kwargs rest with
      | Except.error err => Except.error err
      | Except.ok tl => Except.ok (e :: tl)
    if kwPredLoop p kwargs then cont (PlanEntry.kw p.name)
    else
      match (if p.annotation ≠ none then posLoop p 0 posArgs else none) with
      | some ix => cont (PlanEntry.pos ix)
      | none =>
        if p.name ∈ kwargs.map (fun kv => kv.1) then cont (PlanEntry.kw p.name)
        else if p.default ≠ none then gen_incant_go posArgs kwargs rest
        else Except.error p.name

/-- The plan for a whole callable. -/
def gen_incant_plan (fn : Fn) (posArgs : List (Param → Bool))
    (kwargs : List (String × (Param → Bool))) : Except String (List PlanEntry) :=
  gen_incant_go posArgs kwargs fn.params

/-- Modelled from the spec of the Direct-Call Matcher, for comparison:
prefer a keyword argument matching both name and type predicate; else a
positional argument whose predicate accepts the parameter; else a
keyword matching by name alone; else omit when defaulted; else fail
naming the parameter. -/
def spec_incant_go (posArgs : List (Param → Bool))
    (kwargs : List (String × (Param → Bool))) : List Param → Except String (List PlanEntry)
  | [] => Except.ok []
  | p :: rest =>
    let cont := fun (e : PlanEntry) =>
      match spec_incant_go posArgs kwargs rest with
      | Except.error err => Except.error err
      | Except.ok tl => Except.ok (e :: tl)
    if kwargs.any (fun kv => kv.1 = p.name && kv.2 p) then cont (PlanEntry.kw p.name)
    else
      match posArgs.findIdx? (fun pr => pr p) with
      | some ix => cont (PlanEntry.pos ix)
      | none =>
        if p.name ∈ kwargs.map (fun kv => kv.1) then cont (PlanEntry.kw p.name)
        else if p.default ≠ none then spec_incant_go posArgs kwargs rest
        else Except.error p.name

/-- The claim-side plan for a whole callable. -/
def spec_incant_plan (fn : Fn) (posArgs : List (Param → Bool))
    (kwargs : List (String × (Param → Bool))) : Except String (List PlanEntry) :=
  spec_incant_go posArgs kwargs fn.params

/-- The resolution rule the code actually implements, stated with
library combinators: any type-compatible keyword (name ignored) routes
the parameter by its own name; else the first accepting positional
predicate (runtime-type predicates never accept an unannotated
parameter, so the source's annotation guard is subsumed); else a
keyword of the same name; else the default; else an error naming the
parameter. -/
def amended_incant_go (posArgs : List (Param → Bool))
    (kwargs : List (String × (Param → Bool))) : List Param → Except String (List PlanEntry)
  | [] => Except.ok []
  | p :: rest =>
    let cont := fun (e : PlanEntry) =>
      match amended_incant_go posArgs kwargs rest with
      | Except.error err => Except.error err
      | Except.ok tl => Except.ok (e :: tl)
    if kwargs.any (fun kv => kv.2 p) then cont (PlanEntry.kw p.name)
    else
      match posArgs.findIdx? (fun pr => pr p) with
      | some ix => cont (PlanEntry.pos ix)
      | none =>
        if p.name ∈ kwargs.map (fun kv => kv.1) then cont (PlanEntry.kw p.name)
        else if p.default ≠ none then amended_incant_go posArgs kwargs rest
        else Except.error p.name

/-- The amended resolution rule for a whole callable. -/
def amended_incant_resolve (fn : Fn) (posArgs : List (Param → Bool))
    (kwargs : List (String × (Param → Bool))) : Except String (List PlanEntry) :=
  amended_incant_go posArgs kwargs fn.params

/-- A key of the composition cache: target identity, async flag and
forced dependencies (per-call extra hooks are empty here, the standard
entry points pass none). -/
structure CKey where
  fn : Fn
  is_async : Option Bool
  forced : List (Fn × Option CtxKind)
  deriving DecidableEq

/-- Cache lookup by key. -/
def lookupKey : List (CKey × Plan) → CKey → Option Plan
  | [], _ => none
  | (k, p) :: rest, q => if k = q then some p else lookupKey rest q

/-- The `Incanter` state: its hook registry, the composition cache
(`_call_cache`) and the direct-call matcher cache (`_incant_cache`,
keyed abstractly). -/
structure Engine where
  registry : List Hook
  callCache : List (CKey × Plan)
  incantCache : List (Nat × List PlanEntry)

/-- `Incanter.register_hook_factory`: insert the hook at the front of
the registry and clear both caches. -/
def register_hook_factory (h : Hook) (e : Engine) : Engine :=
  ⟨h :: e.registry, [], []⟩

/-- `Incanter.compose` through the composition cache: return a cached
plan, otherwise build one and cache it on success (`lru_cache` does not
cache raised exceptions; `none` models builder divergence). -/
def composeCached (fuel : Nat) (e : Engine) (k : CKey) :
    Option (Except CompErr Plan) × Engine :=
  match lookupKey e.callCache k with
  | some p => (some (Except.ok p), e)
  | none =>
    match gen_call fuel e.registry k.fn k.is_async k.forced with
    | some (Except.ok p) =>
      (some (Except.ok p), { e with callCache := (k, p) :: e.callCache })
    | some (Except.error err) => (some (Except.error err), e)
    | none => (none, e)

/-- Operations on an `Incanter`: hook registration, a composition, and
a direct-call adaptation (which populates the matcher cache). -/
inductive Op
  | reg (h : Hook)
  | comp (k : CKey)
  | adaptStore (key : Nat) (plan : List PlanEntry)

/-- One operation step. -/
def stepOp (fuel : Nat) (e : Engine) : Op → Engine
  | Op.reg h => register_hook_factory h e
  | Op.comp k => (composeCached fuel e k).2
  | Op.adaptStore key plan => { e with incantCache := (key, plan) :: e.incantCache }

/-- An engine as freshly constructed with a given registry. -/
def freshEngine (registry : List Hook) : Engine := ⟨registry, [], []⟩

/-- Run a sequence of operations from a fresh empty engine. -/
def runOps (fuel : Nat) (ops : List Op) : Engine :=
  ops.foldl (stepOp fuel) (freshEngine [])

/-! Concrete scenarios, used to evaluate the model on the inputs the
claims are settled at. -/

/-- A runtime in which every factory returns normally. -/
def semTotal : Sem := ⟨fun _ _ => some 0⟩

/-- Factory `f` of the shared-consumer scenario: no parameters. -/
def c1f : Fn := ⟨1, [], false⟩

/-- Factory `g` of the shared-consumer scenario: consumes `fp`; it is
registered as a synchronous context manager. -/
def c1g : Fn := ⟨2, [⟨"fp", none, none, PKind.posOrKw⟩], false⟩

/-- Target of the shared-consumer scenario: consumes `fp` and `gp`, so
`c1f` has two downstream consumers (`c1g` and the target). -/
def c1fn : Fn := ⟨0, [⟨"fp", none, none, PKind.posOrKw⟩, ⟨"gp", none, none, PKind.posOrKw⟩], false⟩

/-- Registry of the shared-consumer scenario: `c1f` by name `fp`, then
`c1g` by name `gp` as a sync context manager. -/
def c1registry : List Hook :=
  register_hook_list ⟨fun p => p.name == "gp", some (fun _ => c1g, some CtxKind.sync)⟩
    (register_hook_list ⟨fun p => p.name == "fp", some (fun _ => c1f, none)⟩ [])

/-- The compiled routine of the shared-consumer scenario. -/
def c1compiled : CompiledFn :=
  match gen_call 6 c1registry c1fn (some false) [] with
  | some (Except.ok (Plan.compiled c)) => c
  | _ => ⟨[], [], Expr.badRef, false⟩

/-- One call of the shared-consumer composed routine. -/
def c1run : List Nat × Except RunErr Val := runCompiled semTotal [] c1compiled

/-- Synchronous dependency of the asynchronous-target scenario. -/
def c2d : Fn := ⟨3, [], false⟩

/-- The asynchronous target with one hook-resolved dependency. -/
def c2fn : Fn := ⟨9, [⟨"dep1", none, none, PKind.posOrKw⟩], true⟩

/-- Registry resolving `dep1` by name to the synchronous factory. -/
def c2registry : List Hook :=
  register_hook_list ⟨fun p => p.name == "dep1", some (fun _ => c2d, none)⟩ []

/-- The dependency tree of the asynchronous-target scenario. -/
def c2tree : List DepNode :=
  [⟨c2d, none, []⟩, ⟨c2fn, none, [Dep.factoryDep c2d "dep1" none]⟩]

/-- Asynchronous dependency used by the C2 witness. -/
def c2wd : Fn := ⟨31, [], true⟩

/-- Synchronous target used by the C2 witness. -/
def c2wfn : Fn := ⟨32, [⟨"dep1", none, none, PKind.posOrKw⟩], false⟩

/-- Tree of the C2 witness: a synchronous target over an asynchronous
dependency. -/
def c2wtree : List DepNode :=
  [⟨c2wd, none, []⟩, ⟨c2wfn, none, [Dep.factoryDep c2wd "dep1" none]⟩]

/-- A synchronous target with one plain parameter, for the passthrough
witness. -/
def c3fn : Fn := ⟨30, [⟨"x", some Ty.int, none, PKind.posOrKw⟩], false⟩

/-- Leaf dependency of the type-conflict scenario. -/
def c4dep2 : Fn := ⟨21, [], false⟩

/-- Dependency declaring `input : str` in the type-conflict scenario. -/
def c4dep1 : Fn := ⟨22, [⟨"dep2", none, none, PKind.posOrKw⟩,
  ⟨"input", some Ty.str, none, PKind.posOrKw⟩], false⟩

/-- Target declaring `input : float` in the type-conflict scenario. -/
def c4fn : Fn := ⟨20, [⟨"dep1", none, none, PKind.posOrKw⟩,
  ⟨"input", some Ty.float, none, PKind.posOrKw⟩], false⟩

/-- Tree of the type-conflict scenario: `input` occurs as `str` in the
dependency and as `float` in the target. -/
def c4tree : List DepNode :=
  [⟨c4dep2, none, []⟩,
   ⟨c4dep1, none, [Dep.factoryDep c4dep2 "dep2" none, Dep.paramDep ⟨"input", some Ty.str, none⟩]⟩,
   ⟨c4fn, none, [Dep.factoryDep c4dep1 "dep1" none, Dep.paramDep ⟨"input", some Ty.float, none⟩]⟩]

/-- Leaf dependency of the shared-parameter scenario. -/
def c5dep2 : Fn := ⟨12, [], false⟩

/-- Dependency declaring `input : float` in the shared-parameter
scenario. -/
def c5dep1 : Fn := ⟨11, [⟨"dep2", none, none, PKind.posOrKw⟩,
  ⟨"input", some Ty.float, none, PKind.posOrKw⟩], false⟩

/-- Target with an untyped `input` and a defaulted `flag` in the
shared-parameter scenario. -/
def c5fn : Fn := ⟨10, [⟨"dep1", none, none, PKind.posOrKw⟩,
  ⟨"input", none, none, PKind.posOrKw⟩, ⟨"flag", none, some 7, PKind.posOrKw⟩], false⟩

/-- Tree of the shared-parameter scenario: `input` occurs twice (typed
and untyped), `flag` once with a default. -/
def c5tree : List DepNode :=
  [⟨c5dep2, none, []⟩,
   ⟨c5dep1, none, [Dep.factoryDep c5dep2 "dep2" none, Dep.paramDep ⟨"input", some Ty.float, none⟩]⟩,
   ⟨c5fn, none, [Dep.factoryDep c5dep1 "dep1" none, Dep.paramDep ⟨"input", none, none⟩,
     Dep.paramDep ⟨"flag", none, some 7⟩]⟩]

/-- The compiled routine of the shared-parameter scenario. -/
def c5compiled : CompiledFn :=
  match genCallFromTree c5fn c5tree none with
  | Except.ok (Plan.compiled c) => c
  | _ => ⟨[], [], Expr.badRef, false⟩

/-- Factory of the self-reference scenario: its own parameter is named
`dep`, the very name its hook fulfils. -/
def c6d : Fn := ⟨7, [⟨"dep", none, none, PKind.posOrKw⟩], false⟩

/-- A second factory also registered for the name `dep`. -/
def c6g : Fn := ⟨8, [], false⟩

/-- The hook resolving `dep` to `c6d`. -/
def c6hookD : Hook := ⟨fun p => p.name == "dep", some (fun _ => c6d, none)⟩

/-- The hook resolving `dep` to `c6g`. -/
def c6hookG : Hook := ⟨fun p => p.name == "dep", some (fun _ => c6g, none)⟩

/-- Hook list of the self-reference scenario: the hook resolving to
`c6d` comes first. -/
def c6hooks : List Hook := [c6hookD, c6hookG]

/-- The parameter examined in the self-reference scenario. -/
def c6param : Param := ⟨"dep", none, none, PKind.posOrKw⟩

/-- Factory consumed only by the target in the forced-dependency
scenario (it gets inlined). -/
def c8e : Fn := ⟨4, [], false⟩

/-- Factory with three consumers in the forced-dependency scenario (it
is materialized into a local variable). -/
def c8g : Fn := ⟨3, [], false⟩

/-- Factory consumed twice by the target in the forced-dependency
scenario; it consumes `c8g`. -/
def c8h : Fn := ⟨2, [⟨"s1", some Ty.int, none, PKind.posOrKw⟩], false⟩

/-- The forced dependency: consumed by nothing downstream, it consumes
`c8g` itself. -/
def c8f0 : Fn := ⟨5, [⟨"i", some Ty.int, none, PKind.posOrKw⟩], false⟩

/-- Target of the forced-dependency scenario. -/
def c8fn : Fn := ⟨0, [⟨"p", some Ty.str, none, PKind.posOrKw⟩,
  ⟨"q", some Ty.str, none, PKind.posOrKw⟩,
  ⟨"r", some Ty.int, none, PKind.posOrKw⟩,
  ⟨"s", none, none, PKind.posOrKw⟩], false⟩

/-- Registry of the forced-dependency scenario: `c8e` by name `s`, then
`c8g` for `int`-annotated parameters, then `c8h` for `str`-annotated
parameters. -/
def c8registry : List Hook :=
  register_hook_list ⟨fun p => p.annotation == some Ty.str, some (fun _ => c8h, none)⟩
    (register_hook_list ⟨fun p => p.annotation == some Ty.int, some (fun _ => c8g, none)⟩
      (register_hook_list ⟨fun p => p.name == "s", some (fun _ => c8e, none)⟩ []))

/-- The compiled routine of the forced-dependency scenario, composed
with `c8f0` as a forced dependency. -/
def c8compiled : CompiledFn :=
  match gen_call 6 c8registry c8fn (some false) [(c8f0, none)] with
  | some (Except.ok (Plan.compiled c)) => c
  | _ => ⟨[], [], Expr.badRef, false⟩

/-- One call of the forced-dependency composed routine, with every
factory returning normally. -/
def c8run : List Nat × Except RunErr Val := runCompiled semTotal [] c8compiled

/-- The target of the direct-call scenario: one parameter `x : int`
with no default. -/
def c9fn : Fn := ⟨6, [⟨"x", some Ty.int, none, PKind.posOrKw⟩], false⟩

/-- The keyword arguments of the direct-call scenario: a single keyword
named `y` whose value's runtime type is compatible with `int`. -/
def c9kwargs : List (String × (Param → Bool)) :=
  [("y", fun p => p.annotation == some Ty.int)]

/-- A positional predicate shaped like the ones `_incant` builds: it
rejects any parameter without an annotation. -/
def c9posPred : Param → Bool := fun p => p.annotation == some Ty.float

/-! Helper lemmas. -/

/-- `pySubclassOf` is reflexive, like `issubclass`. -/
theorem pySubclassOf_refl (a : Ty) : pySubclassOf a a = true := by
  cases a <;> rfl

/-- The hook loop with an arbitrary starting index computes the same
hook as the loop started at 0, with the index shifted. -/
theorem applyHooksGo_shift (node : Fn) (p : Param) (l : List Hook) :
    ∀ i, (applyHooksGo node p l i).map Prod.fst =
      ((applyHooksGo node p l 0).map Prod.fst).map (fun x => x + i) := by
  induction l with
  | nil => intro i; rfl
  | cons h rest ih =>
    intro i
    by_cases hp : h.predicate p
    · match hfac : h.factory with
      | none => simp [applyHooksGo, hp, hfac]
      | some (hf, ctx) =>
        by_cases hself : hf p = node
        · have h1 := ih (i + 1)
          have h0 := ih 1
          simp only [applyHooksGo, hp, hfac, if_pos hself, if_true]
          rw [h1, h0]
          cases (applyHooksGo node p rest 0).map Prod.fst with
          | none => rfl
          | some n => simp; omega
        · simp [applyHooksGo, hp, hfac, hself]
    · have h1 := ih (i + 1)
      have h0 := ih 1
      simp only [applyHooksGo, if_neg hp, Nat.zero_add]
      rw [h1, h0]
      cases (applyHooksGo node p rest 0).map Prod.fst with
      | none => rfl
      | some n => simp; omega

/-- The hook loop finds exactly the first applicable hook: predicate
matches and the hook does not resolve to the processed node. -/
theorem applyHooksIdx_eq_findIdx (hooks : List Hook) (node : Fn) (p : Param) :
    (applyHooksIdx hooks node p).map Prod.fst =
      hooks.findIdx? (hookApplicable node p) := by
  induction hooks with
  | nil => rfl
  | cons h rest ih =>
    rw [List.findIdx?_cons]
    by_cases hp : h.predicate p
    · match hfac : h.factory with
      | none =>
        have : hookApplicable node p h = true := by
          simp [hookApplicable, hp, hfac]
        simp [applyHooksIdx, applyHooksGo, hp, hfac, this]
      | some (hf, ctx) =>
        by_cases hself : hf p = node
        · have : hookApplicable node p h = false := by
            simp [hookApplicable, hp, hfac, hself]
          rw [this]
          simp only [applyHooksIdx, applyHooksGo, hp, hfac, if_pos hself, if_true]
          rw [applyHooksGo_shift node p rest 1, ← applyHooksIdx, ih]
          simp
        · have : hookApplicable node p h = true := by
            simp [hookApplicable, hp, hfac, hself]
          simp [applyHooksIdx, applyHooksGo, hp, hfac, hself, this]
    · have : hookApplicable node p h = false := by
        simp [hookApplicable, hp]
      rw [this]
      simp only [applyHooksIdx, applyHooksGo, if_neg hp]
      rw [applyHooksGo_shift node p rest 1, ← applyHooksIdx, ih]
      simp

/-- When some element of the first list satisfies the predicate, the
first hit over the concatenation lies within the first list. -/
theorem findIdx_append_of_exists {α : Type} (p : α → Bool) (l1 l2 : List α)
    (h : ∃ x ∈ l1, p x = true) :
    ∃ i, (l1 ++ l2).findIdx? p = some i ∧ i < l1.length := by
  induction l1 with
  | nil => simp at h
  | cons a rest ih =>
    rw [List.cons_append, List.findIdx?_cons]
    by_cases ha : p a
    · exact ⟨0, by simp [ha], by simp⟩
    · obtain ⟨x, hx, hpx⟩ := h
      rcases List.mem_cons.mp hx with hx | hx
      · subst hx; exact absurd hpx ha
      · obtain ⟨i, hi, hlt⟩ := ih ⟨x, hx, hpx⟩
        refine ⟨i + 1, ?_, by simpa using Nat.succ_lt_succ hlt⟩
        simp [ha, hi]

/-- The keyword-predicate loop is an existence test over the keyword
predicates. -/
theorem kwPredLoop_eq_any (p : Param) (kwargs : List (String × (Param → Bool))) :
    kwPredLoop p kwargs = kwargs.any (fun kv => kv.2 p) := by
  induction kwargs with
  | nil => rfl
  | cons kv rest ih =>
    by_cases h : kv.2 p
    · simp [kwPredLoop, h]
    · simp [kwPredLoop, h, ih]

/-- The positional loop is `findIdx?` with the same starting index. -/
theorem posLoop_eq_findIdx (p : Param) (l : List (Param → Bool)) :
    ∀ i, posLoop p i l = List.findIdx? (fun pr => pr p) l i := by
  induction l with
  | nil => intro i; rfl
  | cons pr rest ih =>
    intro i
    rw [List.findIdx?_cons]
    by_cases h : pr p
    · simp [posLoop, h]
    · simp [posLoop, h, ih (i + 1)]

/-- The direct-call planner and the amended resolution rule agree on
every parameter list, whenever every positional predicate rejects
unannotated parameters (which the runtime-type predicates of `_incant`
always do). -/
theorem gen_incant_go_eq_amended (posArgs : List (Param → Bool))
    (kwargs : List (String × (Param → Bool)))
    (hpos : ∀ pr ∈ posArgs, ∀ p : Param, p.annotation = none → pr p = false) :
    ∀ params, gen_incant_go posArgs kwargs params = amended_incant_go posArgs kwargs params := by
  intro params
  induction params with
  | nil => rfl
  | cons p rest ih =>
    simp only [gen_incant_go, amended_incant_go, ih, kwPredLoop_eq_any]
    by_cases hann : p.annotation = none
    · have hnone : List.findIdx? (fun pr => pr p) posArgs = none :=
        List.findIdx?_eq_none_iff.mpr (fun pr hpr => hpos pr hpr p hann)
      simp [hann, hnone, posLoop_eq_findIdx]
    · simp [hann, posLoop_eq_findIdx]

/-! Claim theorems. -/

/-- C10: a hook built with `Hook.for_type T hook` matches a parameter
exactly when its annotation equals `T` (a strict subclass of `T` does
not match), while the predicate of `register_by_type` matches exactly
the annotations that are (possibly improper) subclasses of `T`; in
particular a strictly subclassed annotation is rejected by the former
and accepted by the latter. -/
theorem for_type_exact_vs_register_by_type :
    (∀ (t : Ty) (h : Option Fn) (p : Param),
      (Hook.for_type t h).predicate p = true ↔ p.annotation = some t) ∧
    (∀ (t : Ty) (p : Param),
      register_by_type_predicate t p = true ↔
        ∃ s, p.annotation = some s ∧ pySubclassOf s t = true) ∧
    (∀ (t s : Ty) (nm : String) (d : Option Val) (k : PKind),
      pySubclassOf s t = true → s ≠ t →
        (Hook.for_type t none).predicate ⟨nm, some s, d, k⟩ = false ∧
        register_by_type_predicate t ⟨nm, some s, d, k⟩ = true) := by
  refine ⟨?_, ?_, ?_⟩
  · intro t h p
    simp [Hook.for_type]
  · intro t p
    cases hp : p.annotation with
    | none => simp [register_by_type_predicate, hp]
    | some s =>
      simp only [register_by_type_predicate, hp, Bool.or_eq_true, beq_iff_eq,
        Option.some.injEq]
      constructor
      · intro h
        rcases h with h | h
        · exact ⟨t, by simp [h], pySubclassOf_refl t⟩
        · exact ⟨s, rfl, h⟩
      · rintro ⟨x, hx, hsub⟩
        cases hx
        exact Or.inr hsub
  · intro t s nm d k hsub hne
    constructor
    · simp [Hook.for_type]
      exact hne
    · simp [register_by_type_predicate, hsub]

/-- Witness for C10 at a concrete strict subclass: `dog` is a strict
subclass of `animal`; a `for_type animal` hook rejects a `dog`-annotated
parameter while the `register_by_type animal` predicate accepts it. -/
theorem for_type_exact_vs_register_by_type_witness :
    pySubclassOf Ty.dog Ty.animal = true ∧ Ty.dog ≠ Ty.animal ∧
    (Hook.for_type Ty.animal none).predicate ⟨"pet", some Ty.dog, none, PKind.posOrKw⟩ = false ∧
    register_by_type_predicate Ty.animal ⟨"pet", some Ty.dog, none, PKind.posOrKw⟩ = true := by
  have h := for_type_exact_vs_register_by_type.2.2 Ty.animal Ty.dog "pet" none
    PKind.posOrKw (by decide) (by decide)
  exact ⟨by decide, by decide, h.1, h.2⟩

/-- C6 counterexample: in the self-reference scenario the first hook
whose predicate matches the parameter `dep` is the one at index 0
(resolving to the node being processed itself), but the hook the
builder applies is the one at index 1. -/
theorem first_predicate_match_counterexample :
    c6hooks.findIdx? (fun h => h.predicate c6param) = some 0 ∧
    (applyHooksIdx c6hooks c6d c6param).map Prod.fst = some 1 := by
  exact ⟨rfl, rfl⟩

/-- C6, amended: the hook applied to a parameter is the first one that
matches it *and* does not resolve to the node being processed
(self-reference is skipped); per-call extra hooks precede the
persistent registry in the consulted list, and registration pushes at
the front of the registry, so the most recently registered hook is
consulted first. -/
theorem hook_resolution_first_applicable :
    (∀ (hooks : List Hook) (node : Fn) (p : Param),
      (applyHooksIdx hooks node p).map Prod.fst =
        hooks.findIdx? (hookApplicable node p)) ∧
    (∀ (extra registry : List Hook) (node : Fn) (p : Param),
      (∃ h ∈ extra, hookApplicable node p h = true) →
      ∃ i, (applyHooksIdx (extra ++ registry) node p).map Prod.fst = some i ∧
        i < extra.length) ∧
    (∀ (h1 h2 : Hook) (e : Engine),
      (register_hook_factory h2 (register_hook_factory h1 e)).registry =
        h2 :: h1 :: e.registry) := by
  refine ⟨applyHooksIdx_eq_findIdx, ?_, fun _ _ _ => rfl⟩
  intro extra registry node p hex
  obtain ⟨i, hi, hlt⟩ := findIdx_append_of_exists (hookApplicable node p) extra registry hex
  refine ⟨i, ?_, hlt⟩
  rw [applyHooksIdx_eq_findIdx]
  exact hi

/-- Witness for the amended C6 with a nonempty extra-hook list: the
applied hook lies within the extra hooks. -/
theorem hook_resolution_first_applicable_witness :
    ∃ i, (applyHooksIdx (c6hooks ++ [Hook.for_type Ty.int none]) c6g c6param).map
      Prod.fst = some i ∧ i < c6hooks.length := by
  apply hook_resolution_first_applicable.2.1
  exact ⟨c6hookD, by simp [c6hooks], by decide⟩

/-- C9 counterexample: for `f(x : int)` called with no positional
arguments and a single keyword argument `y` whose value is
type-compatible with `int`, the code's planner resolves `x` (routing it
as a keyword of name `x`, which the call never passed), while the
claimed preference order — keyword by name and type, positional by
type, keyword by name, default — would raise the unresolved-argument
error naming `x`. -/
theorem incant_kw_name_blind_counterexample :
    gen_incant_plan c9fn [] c9kwargs = Except.ok [PlanEntry.kw "x"] ∧
    spec_incant_plan c9fn [] c9kwargs = Except.error "x" := by
  exact ⟨rfl, rfl⟩

/-- C9, amended: each declared parameter is resolved in this order:
any keyword argument whose runtime type is compatible with the
parameter's declared type (the keyword's *name* is not consulted)
routes the parameter by the parameter's own name; else the first
type-compatible positional argument; else a keyword argument matching
by name alone; else the parameter is omitted when it has a default;
else an unresolved-argument error naming the parameter is raised.  The
hypothesis records that runtime-type predicates never accept an
unannotated parameter. -/
theorem incant_plan_resolution_order (fn : Fn) (posArgs : List (Param → Bool))
    (kwargs : List (String × (Param → Bool)))
    (hpos : ∀ pr ∈ posArgs, ∀ p : Param, p.annotation = none → pr p = false) :
    gen_incant_plan fn posArgs kwargs = amended_incant_resolve fn posArgs kwargs := by
  exact gen_incant_go_eq_amended posArgs kwargs hpos fn.params

/-- Witness for the amended C9 at a concrete call shape. -/
theorem incant_plan_resolution_order_witness :
    gen_incant_plan c9fn [c9posPred] c9kwargs =
      amended_incant_resolve c9fn [c9posPred] c9kwargs := by
  apply incant_plan_resolution_order
  intro pr hpr p hp
  have hpr2 : pr = c9posPred := by simpa using hpr
  subst hpr2
  simp [c9posPred, hp]

/-- C1 (code bug): in the shared-consumer scenario the factory `c1f`
(identity 1) is consumed by two downstream consumers — the ctx-manager
factory `c1g` and the target — yet one call of the composed routine
invokes it twice: the inlineability count skips the arguments of
ctx-manager invocations, so `c1f` is wrongly inlined at both use
sites.  The same call then aborts with a `NameError` on
`_incant_local_1`, because locals are named by `local_counter` but
referenced by invocation index.  The plan is reachable from the public
registry through the graph builder. -/
theorem shared_consumer_invoked_twice :
    gen_call 6 c1registry c1fn (some false) [] =
      some (Except.ok (Plan.compiled c1compiled)) ∧
    c1run.1 = [1, 2, 1] ∧
    c1run.1.count c1f.id = 2 ∧
    c1run.2 = Except.error (RunErr.unboundLocal 1) := by
  exact ⟨rfl, rfl, rfl, rfl⟩

/-- C8 (code bug): in the forced-dependency scenario the compiled body
does contain a bare, non-binding invocation of the forced factory
`c8f0` (identity 5), but a call of the composed routine aborts with a
`NameError` on `_incant_local_1` before reaching it (the statement for
`c8h` references a local numbered by invocation index while the local
was named by `local_counter`), so the forced factory is never invoked:
the trace contains only `c8g` (identity 3). -/
theorem forced_dep_never_invoked :
    gen_call 6 c8registry c8fn (some false) [(c8f0, none)] =
      some (Except.ok (Plan.compiled c8compiled)) ∧
    c8compiled.body =
      [Stmt.assign 0 (Expr.call c8g false []),
       Stmt.assign 1 (Expr.call c8h false [Expr.localVar 1]),
       Stmt.exprStmt (Expr.call c8f0 false [Expr.localVar 1])] ∧
    c8run.1 = [3] ∧
    c8run.1.count c8f0.id = 0 ∧
    c8run.2 = Except.error (RunErr.unboundLocal 1) := by
  exact ⟨rfl, rfl, rfl, rfl, rfl⟩

/-- The code generator always returns a freshly generated routine (or
fails); it never returns the passthrough. -/
theorem compile_invoke_not_passthrough (fn : Fn) (fnArgs : List Fn)
    (fnFactoryArgs : List String) (outerArgs : List ParameterDep)
    (invocations : List Invocation) (b : Bool) :
    compile_invoke fn fnArgs fnFactoryArgs outerArgs invocations b ≠
      Except.ok Plan.passthrough := by
  intro hcontra
  unfold compile_invoke at hcontra
  dsimp only at hcontra
  split at hcontra
  · cases hcontra
  · cases hcontra

/-- The main composition path never returns the passthrough. -/
theorem gen_call_main_not_passthrough (fn : Fn) (tree : List DepNode) (b : Bool) :
    gen_call_main fn tree b ≠ Except.ok Plan.passthrough := by
  unfold gen_call_main
  cases buildInvocations b tree with
  | error e => intro h; cases h
  | ok invocs =>
    cases consolidateOuter (per_outer_arg (outerDeps tree)) with
    | error e => intro h; cases h
    | ok outer => exact compile_invoke_not_passthrough _ _ _ _ _ _

/-- The composition result is the target itself exactly when the tree
is a single node and the requested mode is auto or matches the
target's own nature. -/
theorem genCallFromTree_passthrough_iff (fn : Fn) (tree : List DepNode)
    (ia : Option Bool) :
    genCallFromTree fn tree ia = Except.ok Plan.passthrough ↔
      (tree.length = 1 ∧ (ia = none ∨ ia = some fn.isCoroutine)) := by
  unfold genCallFromTree
  split
  case isTrue h => simp [h]
  case isFalse h =>
    constructor
    · intro hcontra
      exact absurd hcontra (gen_call_main_not_passthrough fn tree _)
    · intro hcond
      exact absurd hcond h

/-- C3: for a single-node dependency tree (the target only), the
composition returns the target callable itself exactly when the
requested async mode is auto or equals the target's own nature; a
mismatched explicit mode never returns the target (the result is a
generated wrapper or a composition error — the Python code generator
always builds a fresh function object). -/
theorem passthrough_identity (fn : Fn) (ds : List Dep) (ia : Option Bool) :
    ((ia = none ∨ ia = some fn.isCoroutine) →
      genCallFromTree fn [⟨fn, none, ds⟩] ia = Except.ok Plan.passthrough) ∧
    (∀ b, ia = some b → b ≠ fn.isCoroutine →
      genCallFromTree fn [⟨fn, none, ds⟩] ia ≠ Except.ok Plan.passthrough) := by
  constructor
  · intro h
    exact (genCallFromTree_passthrough_iff fn [⟨fn, none, ds⟩] ia).mpr ⟨rfl, h⟩
  · intro b hb hne hcontra
    have h2 := ((genCallFromTree_passthrough_iff fn [⟨fn, none, ds⟩] ia).mp hcontra).2
    rcases h2 with h2 | h2
    · rw [hb] at h2; cases h2
    · rw [hb] at h2
      exact hne (Option.some.inj h2)

/-- Witness for C3 on a concrete dependency-free target: its singleton
tree is reachable from an empty registry, auto mode returns the target
itself, and a mismatched async request does not. -/
theorem passthrough_identity_witness :
    gen_dep_tree 6 [] c3fn [] [] =
      some [⟨c3fn, none, [Dep.paramDep ⟨"x", some Ty.int, none⟩]⟩] ∧
    genCallFromTree c3fn [⟨c3fn, none, [Dep.paramDep ⟨"x", some Ty.int, none⟩]⟩] none =
      Except.ok Plan.passthrough ∧
    genCallFromTree c3fn [⟨c3fn, none, [Dep.paramDep ⟨"x", some Ty.int, none⟩]⟩] (some true) ≠
      Except.ok Plan.passthrough := by
  refine ⟨rfl, ?_, ?_⟩
  · exact (passthrough_identity c3fn [Dep.paramDep ⟨"x", some Ty.int, none⟩] none).1
      (Or.inl rfl)
  · exact (passthrough_identity c3fn [Dep.paramDep ⟨"x", some Ty.int, none⟩] (some true)).2
      true rfl (by decide)

/-- Under a synchronous composition, an asynchronous dependency node
(any node but the last) makes the invocation loop fail with the error
naming some offending asynchronous dependency factory. -/
theorem buildInvocations_async_error :
    ∀ tree : List DepNode, tree.dropLast.any nodeAsync = true →
      ∃ g, buildInvocations false tree = Except.error (CompErr.asyncMismatch g) ∧
        ∃ n ∈ tree.dropLast, n.factory = g ∧ nodeAsync n = true := by
  intro tree
  induction tree with
  | nil => intro h; cases h
  | cons x xs ih =>
    cases xs with
    | nil => intro h; cases h
    | cons y rest =>
      intro h
      rw [List.dropLast_cons₂] at h
      by_cases hx : nodeAsync x
      · refine ⟨x.factory, ?_, x, ?_, rfl, hx⟩
        · simp [buildInvocations, hx]
        · rw [List.dropLast_cons₂]
          exact List.mem_cons_self x _
      · have hany : (y :: rest).dropLast.any nodeAsync = true := by
          simp only [List.any_cons, Bool.or_eq_true] at h
          rcases h with h | h
          · exact absurd h hx
          · exact h
        obtain ⟨g, hg, n, hn, hnf, hna⟩ := ih hany
        refine ⟨g, ?_, n, ?_, hnf, hna⟩
        · simp [buildInvocations, hx, hg]
        · rw [List.dropLast_cons₂]
          exact List.mem_cons_of_mem x hn

/-- The invocation loop succeeds whenever no dependency node is
asynchronous under a synchronous mode. -/
theorem buildInvocations_ok :
    ∀ (tree : List DepNode) (b : Bool),
      (∀ n ∈ tree.dropLast, (!b && nodeAsync n) = false) →
      ∃ invs, buildInvocations b tree = Except.ok invs := by
  intro tree
  induction tree with
  | nil => intro b _; exact ⟨[], rfl⟩
  | cons x xs ih =>
    cases xs with
    | nil => intro b _; exact ⟨[], rfl⟩
    | cons y rest =>
      intro b h
      have hx : (!b && nodeAsync x) = false := by
        apply h
        rw [List.dropLast_cons₂]
        exact List.mem_cons_self x _
      have hrest : ∀ n ∈ (y :: rest).dropLast, (!b && nodeAsync n) = false := by
        intro n hn
        apply h
        rw [List.dropLast_cons₂]
        exact List.mem_cons_of_mem x hn
      obtain ⟨invs, hinvs⟩ := ih b hrest
      refine ⟨⟨x.factory, x.deps.map toInvArg,
        !((y :: rest).any (fun m => m.deps.any (fun d =>
          match d with
          | Dep.factoryDep f _ _ => f == x.factory
          | Dep.paramDep _ => false))), x.ctxKind⟩ :: invs, ?_⟩
      simp only [buildInvocations, hx, Bool.false_eq_true, if_false, hinvs]

/-- A successful code generation fixes the compiled routine's async
flag to the requested one. -/
theorem compile_invoke_isAsync (fn : Fn) (fnArgs : List Fn)
    (fnFactoryArgs : List String) (outerArgs : List ParameterDep)
    (invocations : List Invocation) (b : Bool) (c : CompiledFn)
    (h : compile_invoke fn fnArgs fnFactoryArgs outerArgs invocations b =
      Except.ok (Plan.compiled c)) : c.isAsync = b := by
  unfold compile_invoke at h
  dsimp only at h
  split at h
  · cases h
  · cases h
    rfl

/-- A successful main composition path fixes the async flag. -/
theorem gen_call_main_isAsync (fn : Fn) (tree : List DepNode) (b : Bool)
    (c : CompiledFn)
    (h : gen_call_main fn tree b = Except.ok (Plan.compiled c)) : c.isAsync = b := by
  unfold gen_call_main at h
  cases hbi : buildInvocations b tree with
  | error e => rw [hbi] at h; cases h
  | ok invocs =>
    rw [hbi] at h
    cases hco : consolidateOuter (per_outer_arg (outerDeps tree)) with
    | error e => rw [hco] at h; cases h
    | ok outer =>
      rw [hco] at h
      exact compile_invoke_isAsync _ _ _ _ _ _ _ h

/-- C2, amended: with the async flag unspecified, a successfully
composed plan is asynchronous exactly when some node of the tree has an
asynchronous factory or is an asynchronous scoped resource; with the
flag explicitly false, an asynchronous *dependency* node (any node but
the target) fails composition with the error naming an offending
asynchronous dependency factory, before any step executes.  (An
asynchronous *target* under an explicitly synchronous composition fails
differently: the generated source raises a `SyntaxError`, naming no
factory — see the counterexample.) -/
theorem async_resolution (fn : Fn) (tree : List DepNode) (ds : List Dep)
    (hlast : tree.getLast? = some ⟨fn, none, ds⟩) :
    (∀ p, genCallFromTree fn tree none = Except.ok p →
      planIsAsync fn p = tree.any nodeAsync) ∧
    (tree.dropLast.any nodeAsync = true →
      ∃ g, genCallFromTree fn tree (some false) =
          Except.error (CompErr.asyncMismatch g) ∧
        ∃ n ∈ tree.dropLast, n.factory = g ∧ nodeAsync n = true) := by
  constructor
  · intro p hp
    unfold genCallFromTree at hp
    split at hp
    case isTrue hcond =>
      cases hp
      obtain ⟨x, hx⟩ := List.length_eq_one.mp hcond.1
      subst hx
      simp only [List.getLast?_singleton, Option.some.injEq] at hlast
      subst hlast
      simp [planIsAsync, nodeAsync]
    case isFalse hcond =>
      cases p with
      | passthrough => exact absurd hp (gen_call_main_not_passthrough fn tree _)
      | compiled c =>
        have := gen_call_main_isAsync fn tree _ c hp
        simpa [planIsAsync, resolveAsync] using this
  · intro hdep
    obtain ⟨g, hg, n, hn, hnf, hna⟩ := buildInvocations_async_error tree hdep
    refine ⟨g, ?_, n, hn, hnf, hna⟩
    unfold genCallFromTree
    split
    case isTrue hcond =>
      obtain ⟨x, hx⟩ := List.length_eq_one.mp hcond.1
      subst hx
      simp at hn
    case isFalse hcond =>
      unfold gen_call_main
      simp only [resolveAsync, hg]

/-- The plan of the C2 witness under auto mode. -/
def c2wplan : Plan :=
  match genCallFromTree c2wfn c2wtree none with
  | Except.ok p => p
  | _ => Plan.passthrough

/-- Witness for the amended C2: in a tree with an asynchronous
dependency under a synchronous target, auto mode infers an
asynchronous plan, and an explicitly synchronous composition fails
naming an offending asynchronous dependency factory. -/
theorem async_resolution_witness :
    (planIsAsync c2wfn c2wplan = c2wtree.any nodeAsync ∧
      c2wtree.any nodeAsync = true) ∧
    (∃ g, genCallFromTree c2wfn c2wtree (some false) =
        Except.error (CompErr.asyncMismatch g) ∧
      ∃ n ∈ c2wtree.dropLast, n.factory = g ∧ nodeAsync n = true) := by
  constructor
  · exact ⟨(async_resolution c2wfn c2wtree _ rfl).1 c2wplan rfl, rfl⟩
  · exact (async_resolution c2wfn c2wtree _ rfl).2 rfl

/-- Recognizer of the composition error that names an offending
factory. -/
def isAsyncMismatchErr : Except CompErr Plan → Bool
  | Except.error (CompErr.asyncMismatch _) => true
  | _ => false

/-- C2 counterexample: for an asynchronous target over one synchronous
dependency (a tree reachable from the public registry), an explicitly
synchronous composition fails with the `SyntaxError` of the generated
source, not with an error naming an offending factory, although a node
of the tree (the target) requires asynchronous execution. -/
theorem async_target_unnamed_failure :
    gen_dep_tree 6 c2registry c2fn [] [] = some c2tree ∧
    c2tree.any nodeAsync = true ∧
    genCallFromTree c2fn c2tree (some false) = Except.error CompErr.syntaxError ∧
    isAsyncMismatchErr (genCallFromTree c2fn c2tree (some false)) = false := by
  exact ⟨rfl, rfl, rfl, rfl⟩

/-- A failed reconciliation fold names two distinct types, the first
either the incoming accumulator or a declared type of the group, the
second a declared type of the group. -/
theorem foldGroup_error_mem :
    ∀ (args : List ParameterDep) (acc : Option Ty) (d : Option Val) (t1 t2 : Ty),
      foldGroup acc d args = Except.error (t1, t2) →
      t1 ≠ t2 ∧ (acc = some t1 ∨ ∃ q ∈ args, q.type = some t1) ∧
        (∃ q ∈ args, q.type = some t2) := by
  intro args
  induction args with
  | nil => intro acc d t1 t2 h; cases h
  | cons a rest ih =>
    intro acc d t1 t2 h
    cases acc with
    | none =>
      cases hat : a.type with
      | none =>
        rw [foldGroup, hat] at h
        obtain ⟨hne, hl, hr⟩ := ih none _ t1 t2 h
        refine ⟨hne, ?_, ?_⟩
        · rcases hl with hl | ⟨q, hq, hqt⟩
          · cases hl
          · exact Or.inr ⟨q, List.mem_cons_of_mem a hq, hqt⟩
        · obtain ⟨q, hq, hqt⟩ := hr
          exact ⟨q, List.mem_cons_of_mem a hq, hqt⟩
      | some u =>
        rw [foldGroup, hat] at h
        simp only [reconcile_types] at h
        obtain ⟨hne, hl, hr⟩ := ih (some u) _ t1 t2 h
        refine ⟨hne, ?_, ?_⟩
        · rcases hl with hl | ⟨q, hq, hqt⟩
          · exact Or.inr ⟨a, List.mem_cons_self a rest, by rw [hat, hl]⟩
          · exact Or.inr ⟨q, List.mem_cons_of_mem a hq, hqt⟩
        · obtain ⟨q, hq, hqt⟩ := hr
          exact ⟨q, List.mem_cons_of_mem a hq, hqt⟩
    | some u =>
      cases hat : a.type with
      | none =>
        rw [foldGroup, hat] at h
        simp only [reconcile_types] at h
        obtain ⟨hne, hl, hr⟩ := ih (some u) _ t1 t2 h
        refine ⟨hne, ?_, ?_⟩
        · rcases hl with hl | ⟨q, hq, hqt⟩
          · exact Or.inl hl
          · exact Or.inr ⟨q, List.mem_cons_of_mem a hq, hqt⟩
        · obtain ⟨q, hq, hqt⟩ := hr
          exact ⟨q, List.mem_cons_of_mem a hq, hqt⟩
      | some v =>
        rw [foldGroup, hat] at h
        simp only [reconcile_types] at h
        by_cases huv : u = v
        · rw [if_pos huv] at h
          obtain ⟨hne, hl, hr⟩ := ih (some u) _ t1 t2 h
          refine ⟨hne, ?_, ?_⟩
          · rcases hl with hl | ⟨q, hq, hqt⟩
            · exact Or.inl hl
            · exact Or.inr ⟨q, List.mem_cons_of_mem a hq, hqt⟩
          · obtain ⟨q, hq, hqt⟩ := hr
            exact ⟨q, List.mem_cons_of_mem a hq, hqt⟩
        · rw [if_neg huv] at h
          cases h
          refine ⟨huv, Or.inl rfl, a, List.mem_cons_self a rest, hat⟩

/-- A successful reconciliation fold started from a fixed type forces
every declared type of the group to equal it. -/
theorem foldGroup_acc_fixed :
    ∀ (args : List ParameterDep) (t0 : Ty) (d : Option Val)
      (r : Option Ty × Option Val),
      foldGroup (some t0) d args = Except.ok r →
      ∀ q ∈ args, ∀ t, q.type = some t → t = t0 := by
  intro args
  induction args with
  | nil => intro t0 d r _ q hq; cases hq
  | cons a rest ih =>
    intro t0 d r h q hq t hqt
    cases hat : a.type with
    | none =>
      rw [foldGroup, hat] at h
      simp only [reconcile_types] at h
      rcases List.mem_cons.mp hq with hq | hq
      · subst hq; rw [hat] at hqt; cases hqt
      · exact ih t0 _ r h q hq t hqt
    | some v =>
      rw [foldGroup, hat] at h
      simp only [reconcile_types] at h
      by_cases huv : t0 = v
      · rw [if_pos huv] at h
        rcases List.mem_cons.mp hq with hq | hq
        · subst hq
          rw [hat] at hqt
          cases hqt
          exact huv.symm
        · exact ih t0 _ r h q hq t hqt
      · rw [if_neg huv] at h
        cases h

/-- A successful reconciliation fold started empty forces all declared
types of the group to agree pairwise. -/
theorem foldGroup_none_homog :
    ∀ (args : List ParameterDep) (d : Option Val) (r : Option Ty × Option Val),
      foldGroup none d args = Except.ok r →
      ∀ q1 ∈ args, ∀ q2 ∈ args, ∀ t1 t2,
        q1.type = some t1 → q2.type = some t2 → t1 = t2 := by
  intro args
  induction args with
  | nil => intro d r _ q1 hq1; cases hq1
  | cons a rest ih =>
    intro d r h q1 hq1 q2 hq2 t1 t2 ht1 ht2
    cases hat : a.type with
    | none =>
      rw [foldGroup, hat] at h
      rcases List.mem_cons.mp hq1 with hq1 | hq1
      · subst hq1; rw [hat] at ht1; cases ht1
      · rcases List.mem_cons.mp hq2 with hq2 | hq2
        · subst hq2; rw [hat] at ht2; cases ht2
        · exact ih _ r h q1 hq1 q2 hq2 t1 t2 ht1 ht2
    | some u =>
      rw [foldGroup, hat] at h
      simp only [reconcile_types] at h
      have h1 : ∀ q ∈ rest, ∀ t, q.type = some t → t = u :=
        foldGroup_acc_fixed rest u _ r h
      have e1 : t1 = u := by
        rcases List.mem_cons.mp hq1 with hq1 | hq1
        · subst hq1; rw [hat] at ht1; cases ht1; rfl
        · exact h1 q1 hq1 t1 ht1
      have e2 : t2 = u := by
        rcases List.mem_cons.mp hq2 with hq2 | hq2
        · subst hq2; rw [hat] at ht2; cases ht2; rfl
        · exact h1 q2 hq2 t2 ht2
      rw [e1, e2]

/-- A failed group consolidation is a reconcile error naming the
group's argument name and two distinct declared types of the group. -/
theorem consolidateGroup_error (name : String) (g : List ParameterDep) (e : CompErr)
    (h : consolidateGroup name g = Except.error e) :
    ∃ t1 t2, e = CompErr.reconcileError name t1 t2 ∧ t1 ≠ t2 ∧
      (∃ q ∈ g, q.type = some t1) ∧ (∃ q ∈ g, q.type = some t2) := by
  match g with
  | [a] => cases h
  | [] =>
    rw [consolidateGroup] at h
    case x_1 => intro x hx; cases hx
    cases h
  | a :: b :: rest =>
    rw [consolidateGroup] at h
    case x_1 => intro x hx; simp at hx
    cases hf : foldGroup none none (a :: b :: rest) with
    | ok r => rw [hf] at h; cases h
    | error p =>
      obtain ⟨t1, t2⟩ := p
      rw [hf] at h
      cases h
      obtain ⟨hne, hl, hr⟩ := foldGroup_error_mem (a :: b :: rest) none none t1 t2 hf
      rcases hl with hl | hl
      · cases hl
      · exact ⟨t1, t2, rfl, hne, hl, hr⟩

/-- A group containing two distinct declared types cannot consolidate
successfully. -/
theorem consolidateGroup_conflict (name : String) (g : List ParameterDep)
    (q1 q2 : ParameterDep) (hq1 : q1 ∈ g) (hq2 : q2 ∈ g) (t1 t2 : Ty)
    (ht1 : q1.type = some t1) (ht2 : q2.type = some t2) (hne : t1 ≠ t2) :
    ∃ e, consolidateGroup name g = Except.error e := by
  cases hres : consolidateGroup name g with
  | error e => exact ⟨e, rfl⟩
  | ok p =>
    exfalso
    match g, hq1, hq2 with
    | [a], hq1, hq2 =>
      have e1 : q1 = a := by simpa using hq1
      have e2 : q2 = a := by simpa using hq2
      subst e1; subst e2
      rw [ht1] at ht2
      exact hne (Option.some.inj ht2)
    | [], hq1, _ => cases hq1
    | a :: b :: rest, hq1, hq2 =>
      rw [consolidateGroup] at hres
      case x_1 => intro x hx; simp at hx
      cases hf : foldGroup none none (a :: b :: rest) with
      | error p2 => rw [hf] at hres; cases hres
      | ok r =>
        exact hne (foldGroup_none_homog (a :: b :: rest) none r hf
          q1 hq1 q2 hq2 t1 t2 ht1 ht2)

/-- If any group of the grouping holds two distinct declared types,
outer-parameter consolidation fails with a reconcile error naming some
group's argument name and two of its distinct declared types. -/
theorem consolidateOuter_conflict :
    ∀ groups : List (String × List ParameterDep),
      (∃ gp ∈ groups, ∃ q1 ∈ gp.2, ∃ q2 ∈ gp.2, ∃ t1 t2,
        q1.type = some t1 ∧ q2.type = some t2 ∧ t1 ≠ t2) →
      ∃ nm t1 t2, consolidateOuter groups =
          Except.error (CompErr.reconcileError nm t1 t2) ∧ t1 ≠ t2 ∧
        ∃ g, (nm, g) ∈ groups ∧ (∃ q ∈ g, q.type = some t1) ∧
          (∃ q ∈ g, q.type = some t2) := by
  intro groups
  induction groups with
  | nil => intro h; obtain ⟨gp, hgp, _⟩ := h; cases hgp
  | cons hd rest ih =>
    intro h
    obtain ⟨nm0, g0⟩ := hd
    cases hcg : consolidateGroup nm0 g0 with
    | error e =>
      obtain ⟨t1, t2, he, hne, hm1, hm2⟩ := consolidateGroup_error nm0 g0 e hcg
      subst he
      refine ⟨nm0, t1, t2, ?_, hne, g0, List.mem_cons_self _ _, hm1, hm2⟩
      rw [consolidateOuter, hcg]
    | ok p =>
      obtain ⟨gp, hgp, q1, hq1, q2, hq2, t1, t2, ht1, ht2, hne⟩ := h
      rcases List.mem_cons.mp hgp with hgp | hgp
      · exfalso
        subst hgp
        obtain ⟨e, he⟩ := consolidateGroup_conflict nm0 g0 q1 q2 hq1 hq2 t1 t2 ht1 ht2 hne
        rw [hcg] at he
        cases he
      · obtain ⟨nm, t1b, t2b, hco, hneb, g, hg, hm1, hm2⟩ :=
          ih ⟨gp, hgp, q1, hq1, q2, hq2, t1, t2, ht1, ht2, hne⟩
        refine ⟨nm, t1b, t2b, ?_, hneb, g, List.mem_cons_of_mem _ hg, hm1, hm2⟩
        rw [consolidateOuter, hcg, hco]

/-- Membership in the fold collecting the grouping keys. -/
theorem keyList_go_mem (l : List ParameterDep) :
    ∀ (acc : List String) (n : String),
      n ∈ l.foldl keyStep acc ↔ n ∈ acc ∨ ∃ a ∈ l, a.arg_name = n := by
  induction l with
  | nil => intro acc n; simp
  | cons a rest ih =>
    intro acc n
    simp only [List.foldl_cons, keyStep]
    by_cases hmem : a.arg_name ∈ acc
    · rw [if_pos hmem, ih]
      constructor
      · rintro (h | ⟨b, hb, hbn⟩)
        · exact Or.inl h
        · exact Or.inr ⟨b, List.mem_cons_of_mem a hb, hbn⟩
      · rintro (h | ⟨b, hb, hbn⟩)
        · exact Or.inl h
        · rcases List.mem_cons.mp hb with hb | hb
          · subst hb
            exact Or.inl (hbn ▸ hmem)
          · exact Or.inr ⟨b, hb, hbn⟩
    · rw [if_neg hmem, ih]
      constructor
      · rintro (h | ⟨b, hb, hbn⟩)
        · rcases List.mem_append.mp h with h | h
          · exact Or.inl h
          · exact Or.inr ⟨a, List.mem_cons_self a rest, (List.mem_singleton.mp h).symm⟩
        · exact Or.inr ⟨b, List.mem_cons_of_mem a hb, hbn⟩
      · rintro (h | ⟨b, hb, hbn⟩)
        · exact Or.inl (List.mem_append.mpr (Or.inl h))
        · rcases List.mem_cons.mp hb with hb | hb
          · subst hb
            exact Or.inl (List.mem_append.mpr (Or.inr (by simp [hbn])))
          · exact Or.inr ⟨b, hb, hbn⟩

/-- A name is a grouping key exactly when it occurs among the outer
dependencies. -/
theorem mem_keyList (l : List ParameterDep) (n : String) :
    n ∈ keyList l ↔ ∃ a ∈ l, a.arg_name = n := by
  have h := keyList_go_mem l [] n
  simpa [keyList] using h

/-- The grouping keys are free of duplicates. -/
theorem keyList_nodup (l : List ParameterDep) : (keyList l).Nodup := by
  have go : ∀ (acc : List String), acc.Nodup → (l.foldl keyStep acc).Nodup := by
    induction l with
    | nil => intro acc h; exact h
    | cons a rest ih =>
      intro acc h
      simp only [List.foldl_cons, keyStep]
      by_cases hmem : a.arg_name ∈ acc
      · rw [if_pos hmem]
        exact ih acc h
      · rw [if_neg hmem]
        apply ih
        simp [List.nodup_append, h, hmem]
  exact go [] List.nodup_nil

/-- Membership in the grouping: each entry pairs a key with the filter
of all occurrences of that name, in order. -/
theorem per_outer_arg_mem (l : List ParameterDep) (nm : String) (g : List ParameterDep) :
    (nm, g) ∈ per_outer_arg l ↔
      nm ∈ keyList l ∧ g = l.filter (fun x => x.arg_name = nm) := by
  simp only [per_outer_arg, List.mem_map, Prod.mk.injEq]
  constructor
  · rintro ⟨n, hn, he1, he2⟩
    subst he1
    exact ⟨hn, he2.symm⟩
  · rintro ⟨hn, hg⟩
    exact ⟨nm, hn, rfl, hg.symm⟩

/-- C4: in `_reconcile_types` an untyped occurrence yields to any typed
occurrence (in both argument orders); and whenever two occurrences of
the same argument name in the tree declare two distinct types,
composition itself fails with a reconcile error naming an argument and
two distinct declared types of that argument's occurrences, so no plan
exists that could fail later at call time.  (The tree has at least two
nodes; a single signature cannot declare a name twice.) -/
theorem type_conflict_at_composition (fn : Fn) (tree : List DepNode)
    (hlen : 2 ≤ tree.length) (nm : String) (a b : Ty) (hab : a ≠ b)
    (q1 q2 : ParameterDep) (hq1 : q1 ∈ outerDeps tree) (hq2 : q2 ∈ outerDeps tree)
    (hn1 : q1.arg_name = nm) (hn2 : q2.arg_name = nm)
    (ht1 : q1.type = some a) (ht2 : q2.type = some b) :
    (∀ t, reconcile_types none t = Except.ok t ∧ reconcile_types t none = Except.ok t) ∧
    ∃ nm2 t1 t2, genCallFromTree fn tree none =
        Except.error (CompErr.reconcileError nm2 t1 t2) ∧ t1 ≠ t2 ∧
      (∃ q ∈ outerDeps tree, q.arg_name = nm2 ∧ q.type = some t1) ∧
      (∃ q ∈ outerDeps tree, q.arg_name = nm2 ∧ q.type = some t2) := by
  constructor
  · intro t
    cases t <;> exact ⟨rfl, rfl⟩
  · have hkey : nm ∈ keyList (outerDeps tree) :=
      (mem_keyList _ nm).mpr ⟨q1, hq1, hn1⟩
    have hgrp : (nm, (outerDeps tree).filter (fun x => x.arg_name = nm)) ∈
        per_outer_arg (outerDeps tree) :=
      (per_outer_arg_mem _ nm _).mpr ⟨hkey, rfl⟩
    have hq1f : q1 ∈ (outerDeps tree).filter (fun x => x.arg_name = nm) :=
      List.mem_filter.mpr ⟨hq1, by simp [hn1]⟩
    have hq2f : q2 ∈ (outerDeps tree).filter (fun x => x.arg_name = nm) :=
      List.mem_filter.mpr ⟨hq2, by simp [hn2]⟩
    obtain ⟨nm2, t1, t2, hco, hne, g, hg, hm1, hm2⟩ :=
      consolidateOuter_conflict (per_outer_arg (outerDeps tree))
        ⟨_, hgrp, q1, hq1f, q2, hq2f, a, b, ht1, ht2, hab⟩
    have hgf := ((per_outer_arg_mem _ nm2 g).mp hg).2
    refine ⟨nm2, t1, t2, ?_, hne, ?_, ?_⟩
    · unfold genCallFromTree
      rw [if_neg (by rintro ⟨h1, _⟩; omega)]
      unfold gen_call_main
      have hnoasync : ∀ n ∈ tree.dropLast,
          (!(resolveAsync tree none) && nodeAsync n) = false := by
        intro n hn
        cases hany : tree.any nodeAsync with
        | true => simp [resolveAsync, hany]
        | false =>
          have hnot : nodeAsync n = false := by
            have hsub := List.dropLast_sublist (l := tree)
            have := (List.any_eq_false.mp hany) n (hsub.subset hn)
            simpa using this
          simp [resolveAsync, hany, hnot]
      obtain ⟨invs, hinvs⟩ := buildInvocations_ok tree _ hnoasync
      rw [hinvs, hco]
    · obtain ⟨q, hq, hqt⟩ := hm1
      rw [hgf] at hq
      obtain ⟨hqm, hqn⟩ := List.mem_filter.mp hq
      exact ⟨q, hqm, by simpa using hqn, hqt⟩
    · obtain ⟨q, hq, hqt⟩ := hm2
      rw [hgf] at hq
      obtain ⟨hqm, hqn⟩ := List.mem_filter.mp hq
      exact ⟨q, hqm, by simpa using hqn, hqt⟩

/-- Witness for C4 at the concrete conflicting scenario: `input` is
declared `str` by a dependency and `float` by the target; composition
fails with exactly that error. -/
theorem type_conflict_at_composition_witness :
    genCallFromTree c4fn c4tree none =
      Except.error (CompErr.reconcileError "input" Ty.str Ty.float) ∧
    (∃ nm2 t1 t2, genCallFromTree c4fn c4tree none =
        Except.error (CompErr.reconcileError nm2 t1 t2) ∧ t1 ≠ t2 ∧
      (∃ q ∈ outerDeps c4tree, q.arg_name = nm2 ∧ q.type = some t1) ∧
      (∃ q ∈ outerDeps c4tree, q.arg_name = nm2 ∧ q.type = some t2)) := by
  refine ⟨rfl, ?_⟩
  exact (type_conflict_at_composition c4fn c4tree (by decide) "input" Ty.str Ty.float
    (by decide) ⟨"input", some Ty.str, none⟩ ⟨"input", some Ty.float, none⟩
    (by decide) (by decide) rfl rfl rfl rfl).2

/-- The default carried by a reconciled group: the last declared
default of the group, or the incoming one when none is declared. -/
def lastDefault (args : List ParameterDep) (d : Option Val) : Option Val :=
  match (args.filterMap (fun q => q.default)).getLast? with
  | some v => some v
  | none => d

/-- Stepping the incoming default through one occurrence commutes with
`lastDefault`. -/
theorem lastDefault_cons (a : ParameterDep) (rest : List ParameterDep) (d : Option Val) :
    lastDefault (a :: rest) d =
      lastDefault rest (if a.default ≠ none then a.default else d) := by
  cases had : a.default with
  | none => simp [lastDefault, List.filterMap_cons, had]
  | some v =>
    rw [if_pos (Option.some_ne_none v)]
    simp only [lastDefault, List.filterMap_cons, had]
    cases hl : rest.filterMap (fun q => q.default) with
    | nil => simp
    | cons x xs =>
      rw [List.getLast?_cons_cons]
      cases hgl : (x :: xs).getLast? with
      | none => simp at hgl
      | some w => simp

/-- A successful reconciliation fold carries the last declared default
of the group (or the incoming default when none is declared). -/
theorem foldGroup_default :
    ∀ (args : List ParameterDep) (acc : Option Ty) (d : Option Val)
      (r : Option Ty × Option Val),
      foldGroup acc d args = Except.ok r → r.2 = lastDefault args d := by
  intro args
  induction args with
  | nil =>
    intro acc d r h
    cases h
    simp [lastDefault]
  | cons a rest ih =>
    intro acc d r h
    rw [foldGroup] at h
    cases hrec : reconcile_types acc a.type with
    | error e => rw [hrec] at h; cases h
    | ok t2 =>
      rw [hrec] at h
      rw [lastDefault_cons]
      exact ih t2 _ r h

/-- A successfully consolidated group keeps the group's name. -/
theorem consolidateGroup_ok_name (name : String) (g : List ParameterDep)
    (p : ParameterDep) (h : consolidateGroup name g = Except.ok p) :
    p.arg_name = name := by
  match g with
  | [a] => cases h; rfl
  | [] =>
    rw [consolidateGroup] at h
    case x_1 => intro x hx; cases hx
    cases h; rfl
  | a :: b :: rest =>
    rw [consolidateGroup] at h
    case x_1 => intro x hx; simp at hx
    cases hf : foldGroup none none (a :: b :: rest) with
    | error e => rw [hf] at h; cases h
    | ok r => rw [hf] at h; cases h; rfl

/-- A successfully consolidated group carries the last declared default
among its occurrences. -/
theorem consolidateGroup_ok_default (name : String) (g : List ParameterDep)
    (p : ParameterDep) (h : consolidateGroup name g = Except.ok p) :
    p.default = lastDefault g none := by
  match g with
  | [a] =>
    cases h
    cases had : a.default with
    | none => simp [lastDefault, had]
    | some v => simp [lastDefault, had]
  | [] =>
    rw [consolidateGroup] at h
    case x_1 => intro x hx; cases hx
    cases h
    simp [lastDefault]
  | a :: b :: rest =>
    rw [consolidateGroup] at h
    case x_1 => intro x hx; simp at hx
    cases hf : foldGroup none none (a :: b :: rest) with
    | error e => rw [hf] at h; cases h
    | ok r =>
      rw [hf] at h
      cases h
      exact foldGroup_default (a :: b :: rest) none none r hf

/-- Successful consolidation maps the group list to outer parameters
named by the group keys, in order. -/
theorem consolidateOuter_ok_names :
    ∀ (groups : List (String × List ParameterDep)) (outer : List ParameterDep),
      consolidateOuter groups = Except.ok outer →
      outer.map (fun p => p.arg_name) = groups.map Prod.fst := by
  intro groups
  induction groups with
  | nil => intro outer h; cases h; rfl
  | cons hd rest ih =>
    intro outer h
    obtain ⟨nm, g⟩ := hd
    rw [consolidateOuter] at h
    cases hcg : consolidateGroup nm g with
    | error e => rw [hcg] at h; cases h
    | ok p =>
      rw [hcg] at h
      cases hco : consolidateOuter rest with
      | error e => rw [hco] at h; cases h
      | ok ps =>
        rw [hco] at h
        cases h
        simp only [List.map_cons]
        rw [consolidateGroup_ok_name nm g p hcg, ih ps hco]

/-- Every successfully consolidated outer parameter stems from the
group of its own name. -/
theorem consolidateOuter_ok_mem :
    ∀ (groups : List (String × List ParameterDep)) (outer : List ParameterDep),
      consolidateOuter groups = Except.ok outer →
      ∀ p ∈ outer, ∃ g, (p.arg_name, g) ∈ groups ∧
        consolidateGroup p.arg_name g = Except.ok p := by
  intro groups
  induction groups with
  | nil =>
    intro outer h p hp
    cases h
    cases hp
  | cons hd rest ih =>
    intro outer h p hp
    obtain ⟨nm, g⟩ := hd
    rw [consolidateOuter] at h
    cases hcg : consolidateGroup nm g with
    | error e => rw [hcg] at h; cases h
    | ok p0 =>
      rw [hcg] at h
      cases hco : consolidateOuter rest with
      | error e => rw [hco] at h; cases h
      | ok ps =>
        rw [hco] at h
        cases h
        rcases List.mem_cons.mp hp with hp | hp
        · subst hp
          have hn := consolidateGroup_ok_name nm g p hcg
          refine ⟨g, ?_, ?_⟩
          · rw [hn]; exact List.mem_cons_self _ _
          · rw [hn]; exact hcg
        · obtain ⟨g2, hg2, hok2⟩ := ih ps hco p hp
          exact ⟨g2, List.mem_cons_of_mem _ hg2, hok2⟩

/-- The outer-parameter sort is a permutation of its input. -/
theorem sortOuter_perm (l : List ParameterDep) : (sortOuter l).Perm l := by
  exact List.filter_append_perm _ l

/-- A successful composition into a generated routine passes through
consolidation and the default sort. -/
theorem gen_call_main_params (fn : Fn) (tree : List DepNode) (b : Bool)
    (c : CompiledFn)
    (h : gen_call_main fn tree b = Except.ok (Plan.compiled c)) :
    ∃ outer, consolidateOuter (per_outer_arg (outerDeps tree)) = Except.ok outer ∧
      c.params = sortOuter outer := by
  unfold gen_call_main at h
  cases hbi : buildInvocations b tree with
  | error e => rw [hbi] at h; cases h
  | ok invocs =>
    rw [hbi] at h
    cases hco : consolidateOuter (per_outer_arg (outerDeps tree)) with
    | error e => rw [hco] at h; cases h
    | ok outer =>
      rw [hco] at h
      refine ⟨outer, rfl, ?_⟩
      unfold compile_invoke at h
      dsimp only at h
      split at h
      · cases h
      · cases h; rfl

/-- The occurrences of one argument name across the tree, in order. -/
def occurrences (nm : String) (tree : List DepNode) : List ParameterDep :=
  (outerDeps tree).filter (fun x => x.arg_name = nm)

/-- C5: in every successfully generated routine, each outer argument
name of the tree appears exactly once in the signature; a name with a
single occurrence keeps that occurrence's declared type and default;
and each merged parameter carries the last declared default among its
occurrences (none when no occurrence declares one). -/
theorem outer_params_consolidated (fn : Fn) (tree : List DepNode) (ia : Option Bool)
    (c : CompiledFn)
    (h : genCallFromTree fn tree ia = Except.ok (Plan.compiled c)) :
    ((c.params.map (fun p => p.arg_name)).Nodup) ∧
    (∀ nm, nm ∈ c.params.map (fun p => p.arg_name) ↔
      ∃ q ∈ outerDeps tree, q.arg_name = nm) ∧
    (∀ p ∈ c.params, ∀ q, occurrences p.arg_name tree = [q] →
      p.type = q.type ∧ p.default = q.default) ∧
    (∀ p ∈ c.params, p.default = lastDefault (occurrences p.arg_name tree) none) := by
  have hmain : ∃ outer, consolidateOuter (per_outer_arg (outerDeps tree)) =
      Except.ok outer ∧ c.params = sortOuter outer := by
    unfold genCallFromTree at h
    split at h
    · cases h
    · exact gen_call_main_params fn tree _ c h
  obtain ⟨outer, hco, hparams⟩ := hmain
  have hperm : (c.params.map (fun p => p.arg_name)).Perm
      (outer.map (fun p => p.arg_name)) := by
    rw [hparams]
    exact (sortOuter_perm outer).map _
  have hnames : outer.map (fun p => p.arg_name) =
      (per_outer_arg (outerDeps tree)).map Prod.fst :=
    consolidateOuter_ok_names _ outer hco
  have hkeys : (per_outer_arg (outerDeps tree)).map Prod.fst =
      keyList (outerDeps tree) := by
    rw [per_outer_arg, List.map_map]
    rw [show (Prod.fst ∘ fun n => (n, (outerDeps tree).filter
      (fun a => a.arg_name = n))) = (id : String → String) from rfl]
    exact List.map_id _
  have hmemgroup : ∀ p ∈ c.params, consolidateGroup p.arg_name
      (occurrences p.arg_name tree) = Except.ok p := by
    intro p hp
    have hpo : p ∈ outer := by
      rw [hparams] at hp
      exact (sortOuter_perm outer).subset hp
    obtain ⟨g, hg, hok⟩ := consolidateOuter_ok_mem _ outer hco p hpo
    have := ((per_outer_arg_mem _ _ _).mp hg).2
    rw [this] at hok
    exact hok
  refine ⟨?_, ?_, ?_, ?_⟩
  · refine hperm.nodup_iff.mpr ?_
    rw [hnames, hkeys]
    exact keyList_nodup _
  · intro nm
    rw [hperm.mem_iff, hnames, hkeys]
    exact mem_keyList _ nm
  · intro p hp q hq
    have hok := hmemgroup p hp
    rw [hq] at hok
    have h2 : (⟨p.arg_name, q.type, q.default⟩ : ParameterDep) = p := by
      simp only [consolidateGroup] at hok
      exact Except.ok.inj hok
    exact ⟨by rw [← h2], by rw [← h2]⟩
  · intro p hp
    exact consolidateGroup_ok_default _ _ p (hmemgroup p hp)

/-- Witness for C5 at the shared-parameter scenario: `input` occurs in
two branches and appears once (typed `float`), `flag` keeps its own
type and default, and merged defaults are the last declared ones. -/
theorem outer_params_consolidated_witness :
    ((c5compiled.params.map (fun p => p.arg_name)).Nodup) ∧
    ("input" ∈ c5compiled.params.map (fun p => p.arg_name) ↔
      ∃ q ∈ outerDeps c5tree, q.arg_name = "input") ∧
    ((⟨"flag", none, some 7⟩ : ParameterDep) ∈ c5compiled.params →
      occurrences "flag" c5tree = [⟨"flag", none, some 7⟩] →
      (none : Option Ty) = none ∧ (some 7 : Option Val) = some 7) ∧
    ((⟨"input", some Ty.float, none⟩ : ParameterDep) ∈ c5compiled.params →
      (none : Option Val) = lastDefault (occurrences "input" c5tree) none) := by
  have h := outer_params_consolidated c5fn c5tree none c5compiled rfl
  refine ⟨h.1, h.2.1 "input", ?_, ?_⟩
  · intro hp hq
    exact h.2.2.1 ⟨"flag", none, some 7⟩ hp ⟨"flag", none, some 7⟩ hq
  · intro hp
    exact h.2.2.2 ⟨"input", some Ty.float, none⟩ hp

/-- A successful cache lookup returns a stored entry. -/
theorem lookupKey_mem :
    ∀ (l : List (CKey × Plan)) (k : CKey) (p : Plan),
      lookupKey l k = some p → (k, p) ∈ l := by
  intro l
  induction l with
  | nil => intro k p h; cases h
  | cons e rest ih =>
    intro k p h
    obtain ⟨k2, p2⟩ := e
    rw [lookupKey] at h
    by_cases hk : k2 = k
    · rw [if_pos hk] at h
      cases h
      rw [hk]
      exact List.mem_cons_self _ _
    · rw [if_neg hk] at h
      exact List.mem_cons_of_mem _ (ih k p h)

/-- The cache-consistency invariant: every cached plan is what a fresh
build against the current registry produces. -/
def cacheConsistent (fuel : Nat) (e : Engine) : Prop :=
  ∀ kp ∈ e.callCache,
    gen_call fuel e.registry kp.1.fn kp.1.is_async kp.1.forced =
      some (Except.ok kp.2)

/-- Composition never changes the registry. -/
theorem composeCached_registry (fuel : Nat) (e : Engine) (k : CKey) :
    (composeCached fuel e k).2.registry = e.registry := by
  simp only [composeCached]
  cases hl : lookupKey e.callCache k with
  | some p => rfl
  | none =>
    cases hg : gen_call fuel e.registry k.fn k.is_async k.forced with
    | none => rfl
    | some r =>
      cases r with
      | ok p => rfl
      | error err => rfl

/-- Every operation preserves cache consistency: registration clears
the cache, composition stores exactly what it just built, and the
direct-call matcher cache is independent. -/
theorem stepOp_consistent (fuel : Nat) (e : Engine) (op : Op)
    (h : cacheConsistent fuel e) : cacheConsistent fuel (stepOp fuel e op) := by
  cases op with
  | reg h2 =>
    intro kp hkp
    cases hkp
  | adaptStore k pl =>
    intro kp hkp
    exact h kp hkp
  | comp k =>
    intro kp hkp
    rw [show (stepOp fuel e (Op.comp k)).registry = e.registry from
      composeCached_registry fuel e k]
    simp only [stepOp, composeCached] at hkp
    cases hl : lookupKey e.callCache k with
    | some p =>
      rw [hl] at hkp
      exact h kp hkp
    | none =>
      rw [hl] at hkp
      cases hg : gen_call fuel e.registry k.fn k.is_async k.forced with
      | none =>
        rw [hg] at hkp
        exact h kp hkp
      | some r =>
        cases r with
        | error err =>
          rw [hg] at hkp
          exact h kp hkp
        | ok p =>
          rw [hg] at hkp
          rcases List.mem_cons.mp hkp with hkp | hkp
          · subst hkp
            exact hg
          · exact h kp hkp

/-- Any operation sequence from a consistent engine stays consistent. -/
theorem foldOps_consistent (fuel : Nat) :
    ∀ (ops : List Op) (e : Engine), cacheConsistent fuel e →
      cacheConsistent fuel (ops.foldl (stepOp fuel) e) := by
  intro ops
  induction ops with
  | nil => intro e h; exact h
  | cons op rest ih =>
    intro e h
    exact ih _ (stepOp_consistent fuel e op h)

/-- Every reachable engine state is cache consistent. -/
theorem runOps_consistent (fuel : Nat) (ops : List Op) :
    cacheConsistent fuel (runOps fuel ops) := by
  apply foldOps_consistent
  intro kp hkp
  cases hkp

/-- Against a consistent engine, composition returns exactly what a
fresh engine with the same registry would build. -/
theorem composeCached_fresh (fuel : Nat) (e : Engine) (k : CKey)
    (h : cacheConsistent fuel e) :
    (composeCached fuel e k).1 =
      (composeCached fuel (freshEngine e.registry) k).1 := by
  simp only [composeCached, freshEngine, lookupKey]
  cases hl : lookupKey e.callCache k with
  | none =>
    cases hg : gen_call fuel e.registry k.fn k.is_async k.forced with
    | none => rfl
    | some r =>
      cases r with
      | ok p => rfl
      | error err => rfl
  | some p =>
    have hmem := lookupKey_mem e.callCache k p hl
    have hg := h (k, p) hmem
    rw [hg]

/-- C7: registering a hook clears both the composition cache and the
direct-call matcher cache; a reachable engine never returns a stale
plan (its composition result always equals what a fresh engine with the
same current registry would build); and in particular composing right
after a registration equals composing on a fresh engine whose registry
carries the new hook at the front. -/
theorem register_clears_and_never_stale :
    (∀ (fuel : Nat) (ops : List Op) (h : Hook),
      (register_hook_factory h (runOps fuel ops)).callCache = [] ∧
      (register_hook_factory h (runOps fuel ops)).incantCache = []) ∧
    (∀ (fuel : Nat) (ops : List Op) (k : CKey),
      (composeCached fuel (runOps fuel ops) k).1 =
        (composeCached fuel (freshEngine (runOps fuel ops).registry) k).1) ∧
    (∀ (fuel : Nat) (ops : List Op) (h : Hook) (k : CKey),
      (composeCached fuel (stepOp fuel (runOps fuel ops) (Op.reg h)) k).1 =
        (composeCached fuel (freshEngine (h :: (runOps fuel ops).registry)) k).1) := by
  refine ⟨fun _ _ _ => ⟨rfl, rfl⟩, ?_, ?_⟩
  · intro fuel ops k
    exact composeCached_fresh fuel (runOps fuel ops) k (runOps_consistent fuel ops)
  · intro fuel ops h k
    rfl

end Incant
